import Mathlib

/-!
Verification of algorithmic examples from the `python-3-scicomp-intro`
teaching repository.  Each Python function under scrutiny is shallowly
embedded as a Lean definition (stateful code becomes explicit state
passing, generators become list- or sequence-producing functions,
fallible code returns `Option`/`Except`), and the properties claimed of
the programs are settled as theorems about those definitions.
-/

namespace Spec2Proof

open scoped List

/-! ## monads.py: the Maybe monad

Python `Maybe` wraps a single data slot `x`, which holds either the
`Empty` sentinel (modelled as `none`) or a value (modelled as `some`).
`Maybe(Empty)` plays the role of Nothing.  `bind` is implemented in the
source as `self.fmap(f).join()`.
-/

namespace Monads

/-- Model of the Python `Maybe` class: a wrapper around one data slot
that holds either the `Empty` sentinel (`none`) or a payload value. -/
structure Maybe (α : Type u) where
  x : Option α
deriving DecidableEq

/-- `Maybe.__init__`, used as the monadic unit: `Maybe(x)` for a
non-`Empty` payload `x`. -/
def Maybe.unit (a : α) : Maybe α := ⟨some a⟩

/-- `Maybe(Empty)`, the Nothing value. -/
def Maybe.nothing : Maybe α := ⟨none⟩

/-- `Maybe.fmap`: if the slot holds `Empty` the source returns `self`
unchanged, otherwise it wraps `f` applied to the payload. -/
def Maybe.fmap (m : Maybe α) (f : α → β) : Maybe β :=
  match m.x with
  | none => ⟨none⟩
  | some a => ⟨some (f a)⟩

/-- `Maybe.join`: unwraps one layer of nesting; on `Empty` the source
returns `self`. -/
def Maybe.join (m : Maybe (Maybe α)) : Maybe α :=
  match m.x with
  | none => ⟨none⟩
  | some inner => inner

/-- `Maybe.__rshift__` (monadic bind), implemented in the source as
`self.fmap(f).join()`. -/
def Maybe.bind (m : Maybe α) (f : α → Maybe β) : Maybe β :=
  (m.fmap f).join

end Monads

/-! ## race.py: a data race over a global variable

Twenty threads each run `f(k)`: read the global `x` into a local `y`,
sleep, add `k` to the local, write the local back to `x`.  We model the
two accesses to `x` as atomic events; an interleaving is a schedule, a
list of thread indices in which the first occurrence of index `i`
performs thread `i`'s read and the second occurrence performs its
write.  Thread with index `i` (0-based) runs `f(i+1)`.
-/

namespace Race

/-- Shared/per-thread state for `race.py`: the global `x`, and for each
of the 20 threads the local `y` (`none` until that thread has read). -/
structure RState where
  x : Nat
  regs : List (Option Nat)
deriving DecidableEq

/-- Initial state of one trial: `x = 1`, no thread has read yet. -/
def init : RState := ⟨1, List.replicate 20 none⟩

/-- One atomic access by thread `i`: if the thread has not yet read,
it performs `y = x`; otherwise it performs `x = y + k` with `k = i+1`
(the local computation `y += k` does not access `x`). -/
def step (s : RState) (i : Nat) : RState :=
  match s.regs.getD i none with
  | none => ⟨s.x, s.regs.set i (some s.x)⟩
  | some y => ⟨y + (i + 1), s.regs⟩

/-- Run a whole schedule from the initial state. -/
def run (sched : List Nat) : RState := sched.foldl step init

/-- A valid interleaving of the twenty threads: every index below 20
occurs exactly twice (one read, one write) and nothing else occurs. -/
def validSched (sched : List Nat) : Prop :=
  (∀ i < 20, sched.count i = 2) ∧ ∀ j ∈ sched, j < 20

instance : DecidablePred validSched := by
  unfold validSched
  infer_instance

/-- The fully serial schedule: thread 1 runs to completion, then
thread 2, and so on. -/
def serialSched : List Nat := (List.range 20).flatMap (fun i => [i, i])

/-- A racy schedule: every thread reads `x` before any thread writes. -/
def racySched : List Nat := List.range 20 ++ List.range 20

theorem run_serial_aux : ∀ (ids : List Nat) (s : RState),
    s.regs.length = 20 → ids.Nodup → (∀ i ∈ ids, i < 20) →
    (∀ i ∈ ids, s.regs.getD i none = none) →
    (List.foldl step s (ids.flatMap (fun i => [i, i]))).x =
      s.x + (ids.map (fun i => i + 1)).sum := by
  intro ids
  induction ids with
  | nil => intro s _ _ _ _; simp
  | cons i rest ih =>
    intro s hlen hnd hlt hnone
    rw [List.flatMap_cons, List.foldl_append]
    have hs1 : step s i = ⟨s.x, s.regs.set i (some s.x)⟩ := by
      rw [step, hnone i (List.mem_cons_self _ _)]
    have hgd : (s.regs.set i (some s.x)).getD i none = some s.x := by
      rw [List.getD_eq_getElem?_getD, List.getElem?_set_self]
      · rfl
      · rw [hlen]
        exact hlt i (List.mem_cons_self _ _)
    have hs2 : step (⟨s.x, s.regs.set i (some s.x)⟩ : RState) i =
        ⟨s.x + (i + 1), s.regs.set i (some s.x)⟩ := by
      rw [step]
      rw [show (⟨s.x, s.regs.set i (some s.x)⟩ : RState).regs.getD i none =
          some s.x from hgd]
    have hpair : List.foldl step s [i, i] =
        (⟨s.x + (i + 1), s.regs.set i (some s.x)⟩ : RState) := by
      rw [List.foldl_cons, List.foldl_cons, List.foldl_nil, hs1, hs2]
    rw [hpair, ih]
    · simp only [List.map_cons, List.sum_cons]
      omega
    · simp [List.length_set, hlen]
    · exact (List.nodup_cons.mp hnd).2
    · exact fun j hj => hlt j (List.mem_cons_of_mem _ hj)
    · intro j hj
      have hji : j ≠ i := by
        rintro rfl
        exact (List.nodup_cons.mp hnd).1 hj
      rw [List.getD_eq_getElem?_getD, List.getElem?_set_ne (Ne.symm hji),
        ← List.getD_eq_getElem?_getD]
      exact hnone j (List.mem_cons_of_mem _ hj)

end Race

/-! ## mro.py: C3 linearization

`compute_mro` takes a dict mapping each class name to the list of its
immediate base-class names (in declaration order) and computes the
method resolution order of every class by C3 linearization.  The dict
is modelled as an insertion-ordered association list.  The Python
recursion is embedded with explicit fuel: `none` models a computation
that has not finished within the given fuel, `some (.error ())` models
the `LinearizationImpossible` exception, and `some (.ok v)` a normal
return of `v`.
-/

namespace Mro

/-- Insertion-ordered model of the `classes` dict: class name to list of
immediate base-class names. -/
abbrev ClassMap := List (String × List String)

/-- Dict lookup on the association-list model. -/
def alookup : List (String × α) → String → Option α
  | [], _ => none
  | (k, v) :: rest, name => if k = name then some v else alookup rest name

/-- List utility `head` from the source: first element, or `None` for an
empty list. -/
def headO (l : List String) : Option String := l.head?

/-- List utility `tail` from the source: `lst[1:]` when the length
exceeds one, else the empty list. -/
def tailPy (l : List String) : List String :=
  if 1 < l.length then l.drop 1 else []

/-- `remove_all`: remove all occurrences of `elt`, returning a copy. -/
def remove_all (elt : String) (l : List String) : List String :=
  l.filter (fun x => x ≠ elt)

/-- `remove_all_in`: remove `elt` from every list. -/
def remove_all_in (elt : String) (ls : List (List String)) : List (List String) :=
  ls.map (remove_all elt)

/-- `C3_find_good_head`: the first element of `heads` that is in none of
the `tails`; `none` models raising `LinearizationImpossible`. -/
def C3_find_good_head (heads : List String) (tails : List (List String)) :
    Option String :=
  heads.find? (fun hd => !(tails.flatten.contains hd))

/-- The loop body of `C3_merge`, with fuel.  Each iteration collects the
non-`None` heads, stops when there are none, otherwise appends a good
head to the output and removes it from every list. -/
def C3_merge_loop : Nat → List String → List (List String) →
    Option (Except Unit (List String))
  | 0, _, _ => none
  | fuel + 1, out, lists =>
    let heads := lists.filterMap headO
    if heads = [] then some (.ok out)
    else
      let tails := lists.map tailPy
      match C3_find_good_head heads tails with
      | none => some (.error ())
      | some hd => C3_merge_loop fuel (out ++ [hd]) (remove_all_in hd lists)

/-- Total number of elements across the merge work lists; each loop
iteration strictly decreases it, so it bounds the iteration count. -/
def totalLen (lists : List (List String)) : Nat :=
  (lists.map List.length).sum

/-- `C3_merge` of the source, run with enough fuel for its loop. -/
def C3_merge (lists : List (List String)) : Option (Except Unit (List String)) :=
  C3_merge_loop (totalLen lists + 1) [] lists

/-- The state threaded through `C3_linearize`: the cross-run `memo`
cache and the per-run `seen` set (modelled as a duplicate-free list). -/
structure St where
  memo : List (String × List String)
  seen : List String
deriving DecidableEq

/-- The `for baseclass_node in classes[name]` loop of `C3_linearize`:
linearize each base not yet in `seen`, accumulating the resulting
linearizations and threading the state.  The recursive call to
`C3_linearize` is abstracted as `self`. -/
def linBases (self : String → St → Option (Except Unit (List String × St))) :
    List String → St → List (List String) →
    Option (Except Unit (List (List String) × St))
  | [], st, acc => some (.ok (acc, st))
  | b :: bs, st, acc =>
    if b ∈ st.seen then linBases self bs st acc
    else
      match self b st with
      | none => none
      | some (.error e) => some (.error e)
      | some (.ok (mro, st2)) => linBases self bs st2 (acc ++ [mro])

/-- `C3_linearize` of the source, with fuel bounding the recursion
depth: add `name` to `seen`; on a memo hit return the cached result;
a class that is unknown or has no bases maps to `[name]`; otherwise
merge the linearizations of the unseen bases together with the list of
the bases themselves, and cache `[name] + merged`. -/
def C3_linearize (classes : ClassMap) : Nat → String → St →
    Option (Except Unit (List String × St))
  | 0, _, _ => none
  | fuel + 1, name, st =>
    let seen1 := st.seen.insert name
    match alookup st.memo name with
    | some mro => some (.ok (mro, ⟨st.memo, seen1⟩))
    | none =>
      match alookup classes name with
      | none => some (.ok ([name], ⟨(name, [name]) :: st.memo, seen1⟩))
      | some bases =>
        if bases = [] then
          some (.ok ([name], ⟨(name, [name]) :: st.memo, seen1⟩))
        else
          match linBases (C3_linearize classes fuel) bases ⟨st.memo, seen1⟩ [] with
          | none => none
          | some (.error e) => some (.error e)
          | some (.ok (lists, st2)) =>
            match C3_merge (lists ++ [bases]) with
            | none => none
            | some (.error e) => some (.error e)
            | some (.ok merged) =>
              some (.ok (name :: merged, ⟨(name, name :: merged) :: st2.memo, st2.seen⟩))

/-- The `for name in classes` loop of `compute_mro`: linearize each key
in insertion order with a fresh `seen` set, sharing `memo` across the
iterations, and collect the results. -/
def computeLoop (classes : ClassMap) (fuel : Nat) :
    List String → List (String × List String) → List (String × List String) →
    Option (Except Unit (List (String × List String)))
  | [], _, acc => some (.ok acc)
  | name :: rest, memo, acc =>
    match C3_linearize classes fuel name ⟨memo, []⟩ with
    | none => none
    | some (.error e) => some (.error e)
    | some (.ok (mro, st)) => computeLoop classes fuel rest st.memo (acc ++ [(name, mro)])

/-- Every class name occurring in the input: the keys and all the named
bases. -/
def allNames (classes : ClassMap) : List String :=
  (classes.map Prod.fst ++ (classes.map Prod.snd).flatten).dedup

/-- `compute_mro` of the source, run with enough fuel for its
recursion (the depth never exceeds the number of distinct names). -/
def compute_mro (classes : ClassMap) :
    Option (Except Unit (List (String × List String))) :=
  computeLoop classes ((allNames classes).length + 1) (classes.map Prod.fst) [] []

/-- The C3 linearization as specified: a class that is unknown or has
no bases maps to `[name]`; otherwise the class itself followed by the
C3 merge of the linearizations of all its parents together with the
list of the parents themselves in declaration order. -/
def specLinearize (classes : ClassMap) : Nat → String → Option (List String)
  | 0, _ => none
  | fuel + 1, name =>
    match alookup classes name with
    | none => some [name]
    | some [] => some [name]
    | some bases =>
      match (bases.mapM (specLinearize classes fuel)) with
      | none => none
      | some parentLins =>
        match C3_merge (parentLins ++ [bases]) with
        | some (.ok merged) => some (name :: merged)
        | _ => none

/-- The hierarchy X(A, C); A(B); C(B); B(E); E, in declaration order.
It is acyclic and C3-consistent: every class has a C3 linearization. -/
def buggyInput : ClassMap :=
  [("X", ["A", "C"]), ("A", ["B"]), ("C", ["B"]), ("B", ["E"]), ("E", [])]

end Mro

/-! ## sieve.py: prime generators

`primes()` yields 2 and then, for `f = 1, 2, 3, ...`, the candidate
`n = 2*f + 1` whenever no `p` drawn from `takewhile(lambda x: x*x <= n,
primes())` satisfies `p != n and n % p == 0`.  Because the generator
emits its output in increasing order, the primes inspected by the
`takewhile` are exactly the generated `p` with `p * p ≤ n`; every such
`p` is smaller than `n`, so the self-reference is modelled by a
membership test `pgen` defined by strong recursion on `n`, implemented
with fuel (`pgenAux fuel n` is exact whenever `n ≤ fuel`).
-/

namespace Sieve

/-- Membership test of the `primes()` output stream, with fuel bounding
the self-referential recursion: 2 is yielded; an odd `n ≥ 3` is yielded
when no previously yielded `p` with `p * p ≤ n` and `p ≠ n` divides
`n`; nothing else is yielded. -/
def pgenAux : Nat → Nat → Bool
  | 0, n => n == 2
  | fuel + 1, n =>
    if n = 2 then true
    else if n % 2 = 1 ∧ 3 ≤ n then
      ! (List.range n).any (fun p =>
          (pgenAux fuel p && decide (p * p ≤ n)) &&
          (decide (p ≠ n) && decide (n % p = 0)))
    else false

/-- Membership in the `primes()` output stream. -/
def pgen (n : Nat) : Bool := pgenAux n n

theorem list_any_congr {α : Type} {l : List α} {p q : α → Bool}
    (h : ∀ a ∈ l, p a = q a) : l.any p = l.any q := by
  induction l with
  | nil => rfl
  | cons a l ih =>
    simp only [List.any_cons]
    rw [h a (List.mem_cons_self a l), ih (fun b hb => h b (List.mem_cons_of_mem a hb))]

theorem pgenAux_stable : ∀ n f g, n ≤ f → n ≤ g → pgenAux f n = pgenAux g n := by
  intro n
  induction n using Nat.strong_induction_on with
  | _ n ih =>
    intro f g hf hg
    match f, g with
    | 0, 0 => rfl
    | 0, g + 1 =>
      interval_cases n
      rfl
    | f + 1, 0 =>
      interval_cases n
      rfl
    | f + 1, g + 1 =>
      simp only [pgenAux]
      rcases eq_or_ne n 2 with rfl | hn2
      · rfl
      · rw [if_neg hn2, if_neg hn2]
        by_cases hodd : n % 2 = 1 ∧ 3 ≤ n
        · rw [if_pos hodd, if_pos hodd]
          have : ((List.range n).any (fun p =>
              (pgenAux f p && decide (p * p ≤ n)) &&
              (decide (p ≠ n) && decide (n % p = 0)))) =
              ((List.range n).any (fun p =>
              (pgenAux g p && decide (p * p ≤ n)) &&
              (decide (p ≠ n) && decide (n % p = 0)))) := by
            refine list_any_congr (fun p hp => ?_)
            have hpn : p < n := List.mem_range.mp hp
            rw [ih p hpn f g (by omega) (by omega)]
          rw [this]
        · rw [if_neg hodd, if_neg hodd]

theorem pgenAux_eq_pgen {n f : Nat} (h : n ≤ f) : pgenAux f n = pgen n :=
  pgenAux_stable n f n h le_rfl

/-- The stream test coincides with primality. -/
theorem pgen_iff_prime : ∀ n, pgen n = true ↔ n.Prime := by
  intro n
  induction n using Nat.strong_induction_on with
  | _ n ih =>
    rcases n with _ | _ | _ | m
    · simp [pgen, pgenAux, Nat.not_prime_zero]
    · simp [pgen, pgenAux, Nat.not_prime_one]
    · simp [pgen, pgenAux, Nat.prime_two]
    · have hn2 : m + 3 ≠ 2 := by omega
      by_cases hodd : (m + 3) % 2 = 1
      · have hstep : pgen (m + 3) =
            ! (List.range (m + 3)).any (fun p =>
              (pgenAux (m + 2) p && decide (p * p ≤ m + 3)) &&
              (decide (p ≠ m + 3) && decide ((m + 3) % p = 0))) := by
          show pgenAux (m + 2 + 1) (m + 3) = _
          rw [pgenAux, if_neg hn2, if_pos ⟨hodd, by omega⟩]
        have hany : ((List.range (m + 3)).any (fun p =>
            (pgenAux (m + 2) p && decide (p * p ≤ m + 3)) &&
            (decide (p ≠ m + 3) && decide ((m + 3) % p = 0)))) = true ↔
            ∃ p < m + 3, p.Prime ∧ p * p ≤ m + 3 ∧ p ≠ m + 3 ∧ p ∣ m + 3 := by
          rw [List.any_eq_true]
          constructor
          · rintro ⟨p, hp, hcond⟩
            have hpn : p < m + 3 := List.mem_range.mp hp
            rw [pgenAux_eq_pgen (by omega)] at hcond
            simp only [Bool.and_eq_true, decide_eq_true_eq] at hcond
            exact ⟨p, hpn, (ih p hpn).mp hcond.1.1, hcond.1.2, hcond.2.1,
              Nat.dvd_of_mod_eq_zero hcond.2.2⟩
          · rintro ⟨p, hpn, hprime, hsq, hne, hdvd⟩
            refine ⟨p, List.mem_range.mpr hpn, ?_⟩
            rw [pgenAux_eq_pgen (by omega)]
            simp only [Bool.and_eq_true, decide_eq_true_eq]
            exact ⟨⟨(ih p hpn).mpr hprime, hsq⟩, hne, Nat.mod_eq_zero_of_dvd hdvd⟩
        rw [hstep]
        constructor
        · intro hno
          rw [Bool.not_eq_eq_eq_not, Bool.not_true] at hno
          by_contra hnp
          obtain hq := Nat.minFac_sq_le_self (by omega : 0 < m + 3) hnp
          have hqp : ((m + 3).minFac).Prime := Nat.minFac_prime (by omega)
          have hqlt : (m + 3).minFac < m + 3 :=
            (Nat.not_prime_iff_minFac_lt (by omega)).mp hnp
          have : ((List.range (m + 3)).any (fun p =>
              (pgenAux (m + 2) p && decide (p * p ≤ m + 3)) &&
              (decide (p ≠ m + 3) && decide ((m + 3) % p = 0)))) = true := by
            rw [hany]
            exact ⟨(m + 3).minFac, hqlt, hqp, by nlinarith [hq], by omega,
              Nat.minFac_dvd (m + 3)⟩
          rw [this] at hno
          simp at hno
        · intro hprime
          rw [Bool.not_eq_eq_eq_not, Bool.not_true, ← Bool.not_eq_true, hany]
          rintro ⟨p, hpn, hpp, hsq, hne, hdvd⟩
          rcases (Nat.Prime.eq_one_or_self_of_dvd hprime p hdvd) with h1 | h1
          · exact absurd h1 hpp.ne_one
          · exact hne h1
      · have hfls : pgen (m + 3) = false := by
          show pgenAux (m + 2 + 1) (m + 3) = false
          rw [pgenAux, if_neg hn2, if_neg (by omega)]
        rw [hfls]
        simp only [Bool.false_eq_true, false_iff]
        intro hp
        rcases hp.eq_two_or_odd with h2 | h2
        · omega
        · omega

/-- The output of `primes()` after the main loop has examined the
candidates `n = 2*f + 1` for `f = 1, ..., N`: the initial 2 followed by
the accepted odd candidates in increasing order. -/
def pOut (N : Nat) : List Nat :=
  2 :: (((List.range N).map (fun i => 2 * (i + 1) + 1)).filter (fun n => pgen n))

theorem mem_pOut {n N : Nat} : n ∈ pOut N ↔ n.Prime ∧ (n = 2 ∨ n ≤ 2 * N + 1) := by
  simp only [pOut, List.mem_cons, List.mem_filter, List.mem_map, List.mem_range]
  constructor
  · rintro (rfl | ⟨⟨i, hi, rfl⟩, hgen⟩)
    · exact ⟨Nat.prime_two, Or.inl rfl⟩
    · exact ⟨(pgen_iff_prime _).mp hgen, Or.inr (by omega)⟩
  · rintro ⟨hp, rfl | hle⟩
    · exact Or.inl rfl
    · rcases eq_or_ne n 2 with rfl | hn2
      · exact Or.inl rfl
      · have hodd : n % 2 = 1 := (hp.eq_two_or_odd).resolve_left hn2
        have h2 : 2 ≤ n := hp.two_le
        refine Or.inr ⟨⟨(n - 3) / 2, by omega, by omega⟩, (pgen_iff_prime n).mpr hp⟩

theorem pOut_pairwise (N : Nat) : (pOut N).Pairwise (· < ·) := by
  simp only [pOut]
  rw [List.pairwise_cons]
  constructor
  · intro b hb
    obtain ⟨⟨i, _, rfl⟩, _⟩ := by
      simpa only [List.mem_filter, List.mem_map, List.mem_range] using hb
    omega
  · refine List.Pairwise.filter _ ?_
    rw [List.pairwise_map]
    exact (List.pairwise_lt_range N).imp (by omega)

/-- The membership test of `memo_primes()`: the candidate is checked
against the memoized list of already generated primes, truncated by the
`takewhile` to those with `x * x ≤ n`. -/
def memoTest (memo : List Nat) (n : Nat) : Bool :=
  !((memo.takeWhile (fun x => decide (x * x ≤ n))).any
      (fun p => decide (p ≠ n) && decide (n % p = 0)))

/-- The memo list of `memo_primes()` after the generator has examined
the candidates `n = 2*f + 1` for `f = 1, ..., N`; it also equals the
list of values yielded so far, as every yield is appended to `memo`. -/
def memoRun : Nat → List Nat
  | 0 => [2]
  | N + 1 =>
    let memo := memoRun N
    let n := 2 * (N + 1) + 1
    if memoTest memo n then memo ++ [n] else memo

theorem mem_takeWhile_sorted {l : List Nat} {q : Nat → Bool}
    (hmono : ∀ x y, x ≤ y → q y = true → q x = true) :
    l.Pairwise (· < ·) → ∀ x, (x ∈ l.takeWhile q ↔ x ∈ l ∧ q x = true) := by
  induction l with
  | nil => intro _ x; simp
  | cons a t ih =>
    intro hp x
    rw [List.pairwise_cons] at hp
    rcases hqa : q a with hf | ht
    · rw [List.takeWhile_cons_of_neg (by simp [hqa])]
      simp only [List.not_mem_nil, false_iff, List.mem_cons]
      rintro ⟨rfl | hx, hqx⟩
      · rw [hqa] at hqx; exact Bool.false_ne_true hqx
      · have := hmono a x (le_of_lt (hp.1 x hx)) hqx
        rw [hqa] at this; exact Bool.false_ne_true this
    · rw [List.takeWhile_cons_of_pos (by simp [hqa])]
      simp only [List.mem_cons, ih hp.2 x]
      constructor
      · rintro (rfl | ⟨hx, hqx⟩)
        · exact ⟨Or.inl rfl, hqa⟩
        · exact ⟨Or.inr hx, hqx⟩
      · rintro ⟨rfl | hx, hqx⟩
        · exact Or.inl rfl
        · exact Or.inr ⟨hx, hqx⟩

theorem memoTest_eq_pgen (N : Nat) :
    memoTest (pOut N) (2 * N + 3) = pgen (2 * N + 3) := by
  have hmono : ∀ x y : Nat, x ≤ y →
      decide (y * y ≤ 2 * N + 3) = true → decide (x * x ≤ 2 * N + 3) = true := by
    intro x y hxy h
    simp only [decide_eq_true_eq] at h ⊢
    nlinarith
  have hmem := mem_takeWhile_sorted hmono (pOut_pairwise N)
  by_cases hp : (2 * N + 3).Prime
  · have h1 : memoTest (pOut N) (2 * N + 3) = true := by
      rw [memoTest, Bool.not_eq_true', List.any_eq_false]
      intro p hpmem
      obtain ⟨hpPout, _⟩ := (hmem p).mp hpmem
      obtain ⟨hpp, hor⟩ := mem_pOut.mp hpPout
      simp only [Bool.and_eq_true, decide_eq_true_eq, not_and]
      intro hne hmod
      rcases Nat.Prime.eq_one_or_self_of_dvd hp p (Nat.dvd_of_mod_eq_zero hmod)
        with h1 | h1
      · exact hpp.ne_one h1
      · exact hne h1
    rw [h1, ((pgen_iff_prime (2 * N + 3)).mpr hp).symm]
  · have h0 : memoTest (pOut N) (2 * N + 3) = false := by
      rw [memoTest, Bool.not_eq_false', List.any_eq_true]
      set q := (2 * N + 3).minFac with hqdef
      have hqp : q.Prime := Nat.minFac_prime (by omega)
      have hqd : q ∣ 2 * N + 3 := Nat.minFac_dvd _
      have hsq : q ^ 2 ≤ 2 * N + 3 := Nat.minFac_sq_le_self (by omega) hp
      have hqlt : q < 2 * N + 3 := (Nat.not_prime_iff_minFac_lt (by omega)).mp hp
      have hq2 : 2 ≤ q := hqp.two_le
      refine ⟨q, ?_, ?_⟩
      · refine (hmem q).mpr ⟨mem_pOut.mpr ⟨hqp, Or.inr ?_⟩, ?_⟩
        · nlinarith
        · simp only [decide_eq_true_eq]; nlinarith
      · simp only [Bool.and_eq_true, decide_eq_true_eq]
        exact ⟨by omega, Nat.mod_eq_zero_of_dvd hqd⟩
    have h0' : pgen (2 * N + 3) = false := by
      rcases h : pgen (2 * N + 3) with _ | _
      · rfl
      · exact absurd ((pgen_iff_prime _).mp h) hp
    rw [h0, h0']

theorem pOut_succ (N : Nat) :
    pOut (N + 1) = pOut N ++
      (if pgen (2 * (N + 1) + 1) then [2 * (N + 1) + 1] else []) := by
  simp only [pOut, List.range_succ, List.map_append, List.filter_append,
    List.map_cons, List.map_nil, List.cons_append]
  congr 1
  rcases h : pgen (2 * (N + 1) + 1) with _ | _ <;>
    simp [List.filter_cons, h]

theorem memoRun_eq_pOut : ∀ N, memoRun N = pOut N := by
  intro N
  induction N with
  | zero => rfl
  | succ N ih =>
    rw [memoRun, pOut_succ]
    simp only [ih]
    have heq : memoTest (pOut N) (2 * (N + 1) + 1) = pgen (2 * (N + 1) + 1) := by
      have : 2 * (N + 1) + 1 = 2 * N + 3 := by omega
      rw [this, memoTest_eq_pgen]
    rw [heq]
    rcases h : pgen (2 * (N + 1) + 1) with _ | _ <;> simp [h]

/-- A number survives the `remove_multiples_of` filters installed so
far when no installed `m` divides it. -/
def allNotDvd (ps : List Nat) (n : Nat) : Bool :=
  ps.all (fun m => decide (n % m ≠ 0))

/-- Linear scan of the sieved stream of naturals for its next element
at or beyond `n`. -/
def searchFrom (ps : List Nat) : Nat → Nat → Nat
  | 0, _ => 0
  | fuel + 1, n => if allNotDvd ps n then n else searchFrom ps fuel (n + 1)

/-- `m = next(stream)` in `sicp_primes()`: the first number after the
previous yield `b` that survives every installed filter.  The fuel
`ps.prod * (b + 1) + 2` is a modelling bound only: `ps.prod * (b+1) + 1`
always survives when every element of `ps` exceeds 1, so the scan stops
before the fuel runs out. -/
def sicpNext (ps : List Nat) (b : Nat) : Nat :=
  searchFrom ps (ps.prod * (b + 1) + 2) (b + 1)

/-- The first `k` yields of `sicp_primes()`: the stream starts at
`naturals(2)` (the first search starts just above `getLastD 1 = 1`),
and after each yield `m` a filter removing the multiples of `m` is
appended to the stream. -/
def sicpRun : Nat → List Nat
  | 0 => []
  | k + 1 =>
    let ps := sicpRun k
    ps ++ [sicpNext ps (ps.getLastD 1)]

theorem searchFrom_found (ps : List Nat) : ∀ fuel n m, n ≤ m → m < n + fuel →
    allNotDvd ps m = true →
    allNotDvd ps (searchFrom ps fuel n) = true ∧ n ≤ searchFrom ps fuel n ∧
      searchFrom ps fuel n ≤ m ∧
      ∀ j, n ≤ j → j < searchFrom ps fuel n → allNotDvd ps j = false := by
  intro fuel
  induction fuel with
  | zero => intro n m h1 h2 _; omega
  | succ f ih =>
    intro n m h1 h2 hm
    rw [searchFrom]
    rcases hn : allNotDvd ps n with _ | _
    · rw [if_neg (by simp [hn])]
      have hne : n ≠ m := by
        rintro rfl; rw [hn] at hm; exact Bool.false_ne_true hm
      obtain ⟨r1, r2, r3, r4⟩ := ih (n + 1) m (by omega) (by omega) hm
      refine ⟨r1, by omega, r3, fun j hj1 hj2 => ?_⟩
      rcases eq_or_lt_of_le hj1 with rfl | hj
      · exact hn
      · exact r4 j (by omega) hj2
    · rw [if_pos (by simp [hn])]
      exact ⟨hn, le_rfl, h1, fun j hj1 hj2 => by omega⟩

theorem allNotDvd_prod_succ (ps : List Nat) (b : Nat) (h2 : ∀ p ∈ ps, 2 ≤ p) :
    allNotDvd ps (ps.prod * (b + 1) + 1) = true := by
  rw [allNotDvd, List.all_eq_true]
  intro p hp
  simp only [decide_eq_true_eq]
  have hdvd : p ∣ ps.prod * (b + 1) := Dvd.dvd.mul_right (List.dvd_prod hp) _
  have hp2 := h2 p hp
  obtain ⟨c, hc⟩ := hdvd
  rw [hc, Nat.mul_add_mod, Nat.mod_eq_of_lt (by omega)]
  omega

theorem sicpNext_spec (ps : List Nat) (b : Nat) (h2 : ∀ p ∈ ps, 2 ≤ p) :
    allNotDvd ps (sicpNext ps b) = true ∧ b + 1 ≤ sicpNext ps b ∧
      ∀ j, b + 1 ≤ j → j < sicpNext ps b → allNotDvd ps j = false := by
  have hpos : 0 < ps.prod := List.prod_pos (fun p hp => by have := h2 p hp; omega)
  obtain ⟨r1, r2, _, r4⟩ := searchFrom_found ps (ps.prod * (b + 1) + 2) (b + 1)
    (ps.prod * (b + 1) + 1) (by nlinarith) (by omega)
    (allNotDvd_prod_succ ps b h2)
  exact ⟨r1, r2, r4⟩

/-- The invariant of the `sicp_primes()` stream state: the yields so
far are strictly increasing primes, bounded by the last yield, and
include every prime up to the last yield. -/
def SicpInv (l : List Nat) : Prop :=
  l.Pairwise (· < ·) ∧ (∀ p ∈ l, p.Prime) ∧
    (∀ q, q.Prime → q ≤ l.getLastD 1 → q ∈ l) ∧
    (∀ p ∈ l, p ≤ l.getLastD 1)

theorem getLastD_mem (l : List Nat) : l ≠ [] → ∀ d, l.getLastD d ∈ l := by
  induction l with
  | nil => intro h; exact absurd rfl h
  | cons a t ih =>
    intro _ d
    rw [List.getLastD_cons]
    rcases t with _ | ⟨x, t2⟩
    · simp [List.getLastD]
    · exact List.mem_cons_of_mem a (ih (by simp) a)

theorem sicpRun_inv : ∀ k, SicpInv (sicpRun k) ∧ (sicpRun k).length = k := by
  intro k
  induction k with
  | zero =>
    refine ⟨⟨List.Pairwise.nil, by simp [sicpRun], ?_, by simp [sicpRun]⟩, rfl⟩
    intro q hq hle
    simp only [sicpRun, List.getLastD_nil] at hle
    exact absurd (hq.two_le.trans hle) (by omega)
  | succ k ih =>
    obtain ⟨⟨hsort, hprime, hclosed, hbound⟩, hlen⟩ := ih
    set ps := sicpRun k with hps
    set b := ps.getLastD 1 with hb
    set nxt := sicpNext ps b with hnxt
    have hshow : sicpRun (k + 1) = ps ++ [nxt] := rfl
    have h2 : ∀ p ∈ ps, 2 ≤ p := fun p hp => (hprime p hp).two_le
    have hb1 : 1 ≤ b := by
      by_cases hps0 : ps = []
      · rw [hb, hps0]; simp
      · have hmem : b ∈ ps := getLastD_mem ps hps0 1
        have := h2 b hmem
        omega
    obtain ⟨hsurvN, hgeN, hminN⟩ := sicpNext_spec ps b h2
    have hsurv : ∀ q, q.Prime → b < q → allNotDvd ps q = true := by
      intro q hq hbq
      rw [allNotDvd, List.all_eq_true]
      intro p hp
      simp only [decide_eq_true_eq]
      intro hmod
      rcases Nat.Prime.eq_one_or_self_of_dvd hq p (Nat.dvd_of_mod_eq_zero hmod)
        with h1 | h1
      · have := h2 p hp; omega
      · subst h1
        exact absurd (hbound p hp) (by omega)
    have hgap : ∀ q, q.Prime → b < q → nxt ≤ q := by
      intro q hq hbq
      by_contra hlt
      push_neg at hlt
      have hfalse := hminN q (by omega) hlt
      rw [hsurv q hq hbq] at hfalse
      simp at hfalse
    have h2n : 2 ≤ nxt := by omega
    have hnp : nxt.Prime := by
      by_contra hnpc
      have hqp : (nxt.minFac).Prime := Nat.minFac_prime (by omega)
      have hqd : nxt.minFac ∣ nxt := Nat.minFac_dvd _
      have hqlt : nxt.minFac < nxt := (Nat.not_prime_iff_minFac_lt h2n).mp hnpc
      have hqb : nxt.minFac ≤ b := by
        by_contra hgt
        push_neg at hgt
        exact absurd (hgap _ hqp hgt) (by omega)
      have hqmem : nxt.minFac ∈ ps := hclosed _ hqp hqb
      rw [allNotDvd, List.all_eq_true] at hsurvN
      have hcontra := hsurvN _ hqmem
      simp only [decide_eq_true_eq] at hcontra
      exact hcontra (Nat.mod_eq_zero_of_dvd hqd)
    have hlast : (ps ++ [nxt]).getLastD 1 = nxt := List.getLastD_concat _ _ _
    refine ⟨⟨?_, ?_, ?_, ?_⟩, ?_⟩
    · rw [hshow, List.pairwise_append]
      refine ⟨hsort, by simp, fun x hx y hy => ?_⟩
      simp only [List.mem_singleton] at hy
      subst hy
      have := hbound x hx
      omega
    · intro p hp
      rw [hshow] at hp
      rcases List.mem_append.mp hp with h | h
      · exact hprime p h
      · simp only [List.mem_singleton] at h
        subst h
        exact hnp
    · intro q hq hle
      rw [hshow, hlast] at hle
      rw [hshow]
      by_cases hqb : q ≤ b
      · exact List.mem_append_left _ (hclosed q hq hqb)
      · push_neg at hqb
        have := hgap q hq hqb
        have hqe : q = nxt := by omega
        subst hqe
        exact List.mem_append_right _ (by simp)
    · intro p hp
      rw [hshow, hlast]
      rw [hshow] at hp
      rcases List.mem_append.mp hp with h | h
      · have := hbound p h; omega
      · simp only [List.mem_singleton] at h; omega
    · rw [hshow]
      simp [hlen]

end Sieve

/-- C3: the generator `primes()` yields exactly the prime numbers in
strictly increasing order: after examining any number of candidates its
first output is 2, every number it has yielded is prime, the yields are
strictly increasing, and every prime number is eventually yielded. -/
theorem primes_generator_correct :
    (∀ N, (Sieve.pOut N).head? = some 2) ∧
    (∀ N n, n ∈ Sieve.pOut N → n.Prime) ∧
    (∀ N, (Sieve.pOut N).Pairwise (· < ·)) ∧
    (∀ p, p.Prime → ∃ N, p ∈ Sieve.pOut N) := by
  refine ⟨fun N => rfl, fun N n hn => (Sieve.mem_pOut.mp hn).1,
    Sieve.pOut_pairwise, fun p hp => ?_⟩
  exact ⟨p, Sieve.mem_pOut.mpr ⟨hp, Or.inr (by omega)⟩⟩

/-- Witness for C3 at concrete inputs: 5 is in the output after two
candidates and is prime; 7 is prime and is eventually yielded. -/
theorem primes_generator_correct_witness :
    (Nat.Prime 5) ∧ (∃ N, 7 ∈ Sieve.pOut N) :=
  ⟨primes_generator_correct.2.1 2 5 (by decide),
   primes_generator_correct.2.2.2 7 (by norm_num)⟩

theorem sorted_lower_take : ∀ (l₂ l₁ : List Nat),
    l₁.Pairwise (· < ·) → l₂.Pairwise (· < ·) →
    (∀ x ∈ l₂, x ∈ l₁) → (∀ x ∈ l₁, ∀ y ∈ l₂, x ≤ y → x ∈ l₂) →
    l₂ = l₁.take l₂.length := by
  intro l₂
  induction l₂ with
  | nil => intro l₁ _ _ _ _; rfl
  | cons a t ih =>
    intro l₁ h₁ h₂ hsub hlow
    rcases l₁ with _ | ⟨c, t₁⟩
    · exact absurd (hsub a (List.mem_cons_self a t)) (List.not_mem_nil a)
    · rw [List.pairwise_cons] at h₁ h₂
      have hca : c = a := by
        rcases le_or_lt c a with hle | hgt
        · have hc2 : c ∈ a :: t :=
            hlow c (List.mem_cons_self c t₁) a (List.mem_cons_self a t) hle
          rcases List.mem_cons.mp hc2 with h | h
          · exact h
          · exact absurd hle (not_le.mpr (h₂.1 c h))
        · rcases List.mem_cons.mp (hsub a (List.mem_cons_self a t)) with h | h
          · exact absurd h (ne_of_lt hgt)
          · exact absurd hgt (not_lt.mpr (le_of_lt (h₁.1 a h)))
      subst hca
      have hrec : t = t₁.take t.length := by
        refine ih t₁ h₁.2 h₂.2 ?_ ?_
        · intro x hx
          rcases List.mem_cons.mp (hsub x (List.mem_cons_of_mem c hx)) with h | h
          · exact absurd h.symm (ne_of_lt (h₂.1 x hx))
          · exact h
        · intro x hx y hy hxy
          have hx1 : x ∈ c :: t₁ := List.mem_cons_of_mem c hx
          have hy1 : y ∈ c :: t := List.mem_cons_of_mem c hy
          rcases List.mem_cons.mp (hlow x hx1 y hy1 hxy) with h | h
          · exact absurd h.symm (ne_of_lt (h₁.1 x hx))
          · exact h
      rw [List.length_cons, List.take_succ_cons, ← hrec]

/-- C10: the three prime generators are equivalent.  `primes()` and
`memo_primes()` examine the same candidates and their outputs agree
after every number of examined candidates; and for every `n` there is a
point at which `primes()` (hence `memo_primes()`) has yielded at least
`n` values whose first `n` coincide with the first `n` yields of
`sicp_primes()`. -/
theorem prime_generators_agree :
    (∀ N, Sieve.memoRun N = Sieve.pOut N) ∧
    (∀ k, ∃ N, k ≤ (Sieve.pOut N).length ∧
      (Sieve.pOut N).take k = Sieve.sicpRun k) := by
  refine ⟨Sieve.memoRun_eq_pOut, fun k => ?_⟩
  obtain ⟨⟨hsort, hprime, hclosed, hbound⟩, hlen⟩ := Sieve.sicpRun_inv k
  set L := (Sieve.sicpRun k).getLastD 1 with hL
  have htake : Sieve.sicpRun k = (Sieve.pOut L).take (Sieve.sicpRun k).length := by
    refine sorted_lower_take _ _ (Sieve.pOut_pairwise L) hsort ?_ ?_
    · intro x hx
      exact Sieve.mem_pOut.mpr ⟨hprime x hx, Or.inr (by have := hbound x hx; omega)⟩
    · intro x hx y hy hxy
      obtain ⟨hxp, _⟩ := Sieve.mem_pOut.mp hx
      exact hclosed x hxp (le_trans hxy (hbound y hy))
  refine ⟨L, ?_, ?_⟩
  · have := congrArg List.length htake
    rw [List.length_take] at this
    omega
  · rw [hlen] at htake
    exact htake.symm

/-! ## quicksort_python.py: quicksort

`quicksort(L, lo=0, hi=-1)` copies `L` and sorts the copy in place with
`_qsort`: median-of-3 pivot (`_pivot`, up to three swaps of the values
at `lo`, `mid`, `hi`), Bentley-McIlroy fat partition (`_partition`
rewrites the slice `L[lo:hi+1]` as `low ++ piv ++ high`), recursion on
the strictly smaller parts on each side of the pivot block.  Elements
are modelled as integers (any mutually comparable type works the same
way); in-place mutation becomes explicit list passing, and the recursion
carries fuel (depth never exceeds the slice length).
-/

namespace Quicksort

/-- `swap(i1, i2)` of `_pivot`: the simultaneous assignment
`L[i1], L[i2] = L[i2], L[i1]` — both reads happen before both writes. -/
def swap (l : List Int) (i j : Nat) : List Int :=
  (l.set i (l.getD j 0)).set j (l.getD i 0)

/-- `_pivot`: sort the values at `lo`, `mid`, `hi` in the array with up
to three swaps, and return (the updated array and) the median, read
back from position `mid`. -/
def pivotStep (l : List Int) (lo hi : Nat) : List Int × Int :=
  let mid := (lo + hi) / 2
  let l1 := if l.getD hi 0 < l.getD lo 0 then swap l lo hi else l
  let l2 := if l1.getD mid 0 < l1.getD lo 0 then swap l1 mid lo else l1
  let l3 := if l2.getD hi 0 < l2.getD mid 0 then swap l2 hi mid else l2
  (l3, l3.getD mid 0)

/-- `_partition`: one pass over the slice `L[lo:hi+1]` sends each
element to `low` (`x < p`), `high` (`elif x > p`) or `piv` (`else`);
the slice is then overwritten with `low ++ piv ++ high`, and the
inclusive bounds of the pivot block are returned. -/
def partitionStep (l : List Int) (p : Int) (lo hi : Nat) :
    List Int × Nat × Nat :=
  let slice := (l.drop lo).take (hi + 1 - lo)
  let low := slice.filter (fun x => decide (x < p))
  let high := slice.filter (fun x => decide (¬ x < p ∧ p < x))
  let piv := slice.filter (fun x => decide (¬ x < p ∧ ¬ p < x))
  let l2 := l.take lo ++ (low ++ piv ++ high) ++ l.drop (hi + 1)
  (l2, lo + low.length, lo + low.length + piv.length - 1)

/-- `_qsort` with fuel: when `lo < hi`, pivot, partition, and recurse
on the sub-slices on each side of the pivot block. -/
def qsortAux : Nat → List Int → Nat → Nat → List Int
  | 0, l, _, _ => l
  | fuel + 1, l, lo, hi =>
    if lo < hi then
      let pr := pivotStep l lo hi
      let pt := partitionStep pr.1 pr.2 lo hi
      let l3 := qsortAux fuel pt.1 lo (pt.2.1 - 1)
      qsortAux fuel l3 (pt.2.2 + 1) hi
    else l

/-- `quicksort` with the default arguments `lo=0, hi=-1`: `hi` becomes
`len(L) - 1`, the input is copied, and the copy is sorted in place and
returned. -/
def quicksort (l : List Int) : List Int :=
  qsortAux l.length l 0 (l.length - 1)

/-- The slice `L[s : s+n]`, the unit of reasoning for the in-place
recursion. -/
def seg (l : List Int) (s n : Nat) : List Int := (l.drop s).take n

theorem seg_append (l : List Int) (s n m : Nat) :
    seg l s (n + m) = seg l s n ++ seg l (s + n) m := by
  simp only [seg, List.take_add, List.drop_drop]

theorem seg_whole (l : List Int) : seg l 0 l.length = l := by
  simp [seg]

theorem swap_length (l : List Int) (i j : Nat) :
    (swap l i j).length = l.length := by
  simp [swap]

theorem swap_getElem?_ne (l : List Int) {i j k : Nat} (h1 : k ≠ i) (h2 : k ≠ j) :
    (swap l i j)[k]? = l[k]? := by
  rw [swap, List.getElem?_set_ne (Ne.symm h2), List.getElem?_set_ne (Ne.symm h1)]

theorem take_congr (x y : List Int) (n : Nat)
    (h : ∀ k, k < n → x[k]? = y[k]?) : x.take n = y.take n := by
  apply List.ext_getElem?
  intro k
  rw [List.getElem?_take, List.getElem?_take]
  split
  · next hk => exact h k hk
  · rfl

theorem drop_congr (x y : List Int) (n : Nat)
    (h : ∀ k, n ≤ k → x[k]? = y[k]?) : x.drop n = y.drop n := by
  apply List.ext_getElem?
  intro k
  rw [List.getElem?_drop, List.getElem?_drop]
  exact h (n + k) (by omega)

theorem getD_eq_getElem (l : List Int) {k : Nat} (h : k < l.length) :
    l.getD k 0 = l[k] := by
  rw [List.getD_eq_getElem?_getD, List.getElem?_eq_getElem h, Option.getD_some]

theorem swap_eq_splice (l : List Int) {i j : Nat} (hij : i < j)
    (hj : j < l.length) :
    swap l i j =
      l.take i ++ l[j] :: ((l.drop (i + 1)).take (j - i - 1)) ++
        l[i] :: l.drop (j + 1) ∧
    l = l.take i ++ l[i] :: ((l.drop (i + 1)).take (j - i - 1)) ++
        l[j] :: l.drop (j + 1) := by
  have hi : i < l.length := lt_trans hij hj
  constructor
  · rw [swap, getD_eq_getElem l hi, getD_eq_getElem l hj]
    rw [List.set_eq_take_cons_drop _ hi, List.set_append]
    rw [if_neg (by simp [List.length_take]; omega)]
    have hlt : (l.take i).length = i := by simp [List.length_take]; omega
    rw [hlt]
    have hcons : (l[j] :: l.drop (i + 1)).set (j - i) l[i] =
        l[j] :: (l.drop (i + 1)).set (j - i - 1) l[i] := by
      have : j - i = (j - i - 1) + 1 := by omega
      rw [this]
      rfl
    rw [hcons, List.set_eq_take_cons_drop _ (by simp [List.length_drop]; omega),
      List.drop_drop]
    have : i + 1 + (j - i - 1 + 1) = j + 1 := by omega
    rw [this]
    simp [List.append_assoc]
  · conv_lhs => rw [← List.take_append_drop i l]
    rw [List.drop_eq_getElem_cons hi]
    conv_lhs =>
      rw [← List.take_append_drop (j - i - 1) (l.drop (i + 1))]
    rw [List.drop_drop]
    have : i + 1 + (j - i - 1) = j := by omega
    rw [this, List.drop_eq_getElem_cons hj]
    simp [List.append_assoc]

theorem swap_perm (l : List Int) {i j : Nat} (hi : i < l.length)
    (hj : j < l.length) : swap l i j ~ l := by
  rcases Nat.lt_trichotomy i j with hij | rfl | hij
  · obtain ⟨h1, h2⟩ := swap_eq_splice l hij hj
    rw [h1]
    conv_rhs => rw [h2]
    simp only [List.append_assoc, List.cons_append]
    refine (List.perm_append_left_iff _).mpr ?_
    exact (List.Perm.cons _ List.perm_middle).trans
      ((List.Perm.swap _ _ _).trans (List.Perm.cons _ List.perm_middle.symm))
  · rw [swap, List.set_set]
    have hset : l.set i (l.getD i 0) = l := by
      rw [getD_eq_getElem l hi]
      apply List.ext_getElem (by simp)
      intro n h1 h2
      rw [List.getElem_set]
      split
      · next heq => subst heq; rfl
      · rfl
    rw [hset]
  · obtain ⟨h1, h2⟩ := swap_eq_splice l hij hi
    have hsymm : swap l i j = swap l j i := by
      rw [swap, swap, List.set_comm _ _ _ (by omega)]
    rw [hsymm, h1]
    conv_rhs => rw [h2]
    simp only [List.append_assoc, List.cons_append]
    refine (List.perm_append_left_iff _).mpr ?_
    exact (List.Perm.cons _ List.perm_middle).trans
      ((List.Perm.swap _ _ _).trans (List.Perm.cons _ List.perm_middle.symm))

theorem seg_perm_of_outer (x y : List Int) (lo hi : Nat)
    (htk : x.take lo = y.take lo) (hdp : x.drop (hi + 1) = y.drop (hi + 1))
    (hperm : x ~ y) (hlohi : lo ≤ hi + 1) :
    seg x lo (hi + 1 - lo) ~ seg y lo (hi + 1 - lo) := by
  have hdecomp : ∀ z : List Int,
      z = z.take lo ++ (seg z lo (hi + 1 - lo) ++ z.drop (hi + 1)) := by
    intro z
    rw [seg]
    conv_lhs => rw [← List.take_append_drop lo z]
    congr 1
    conv_lhs => rw [← List.take_append_drop (hi + 1 - lo) (z.drop lo)]
    rw [List.drop_drop]
    congr 2
    omega
  rw [hdecomp x, hdecomp y, htk] at hperm
  have h1 := (List.perm_append_left_iff _).mp hperm
  rw [hdp] at h1
  exact (List.perm_append_right_iff _).mp h1

theorem qsortAux_id (fuel : Nat) (l : List Int) (lo hi : Nat) (h : ¬ lo < hi) :
    qsortAux fuel l lo hi = l := by
  cases fuel with
  | zero => rfl
  | succ f => rw [qsortAux, if_neg h]

theorem condSwap_spec (l : List Int) (i j lo hi : Nat) (cond : Prop)
    [Decidable cond] (hli : lo ≤ i) (hih : i ≤ hi) (hlj : lo ≤ j)
    (hjh : j ≤ hi) (hhi : hi < l.length) :
    (if cond then swap l i j else l).length = l.length ∧
    (if cond then swap l i j else l).take lo = l.take lo ∧
    (if cond then swap l i j else l).drop (hi + 1) = l.drop (hi + 1) ∧
    (if cond then swap l i j else l) ~ l := by
  split
  · refine ⟨swap_length l i j, ?_, ?_, swap_perm l (by omega) (by omega)⟩
    · exact take_congr _ _ lo (fun k hk => swap_getElem?_ne l (by omega) (by omega))
    · exact drop_congr _ _ (hi + 1) (fun k hk => swap_getElem?_ne l (by omega) (by omega))
  · exact ⟨rfl, rfl, rfl, List.Perm.refl l⟩

theorem getD_mem_seg (l : List Int) {lo k hi : Nat} (h1 : lo ≤ k) (h2 : k ≤ hi)
    (h3 : hi < l.length) : l.getD k 0 ∈ seg l lo (hi + 1 - lo) := by
  rw [getD_eq_getElem l (by omega), seg]
  have hklen : k - lo < ((l.drop lo).take (hi + 1 - lo)).length := by
    simp only [List.length_take, List.length_drop]
    omega
  have : ((l.drop lo).take (hi + 1 - lo))[k - lo] = l[k] := by
    rw [List.getElem_take, List.getElem_drop]
    congr 1
    omega
  rw [← this]
  exact List.getElem_mem hklen

theorem pivotStep_spec (l : List Int) (lo hi : Nat) (hlo : lo ≤ hi)
    (hhi : hi < l.length) :
    (pivotStep l lo hi).1.length = l.length ∧
    (pivotStep l lo hi).1.take lo = l.take lo ∧
    (pivotStep l lo hi).1.drop (hi + 1) = l.drop (hi + 1) ∧
    (pivotStep l lo hi).1 ~ l ∧
    (pivotStep l lo hi).2 ∈ seg (pivotStep l lo hi).1 lo (hi + 1 - lo) := by
  have hmid1 : lo ≤ (lo + hi) / 2 := by omega
  have hmid2 : (lo + hi) / 2 ≤ hi := by omega
  obtain ⟨a1, a2, a3, a4⟩ := condSwap_spec l lo hi lo hi
    (l.getD hi 0 < l.getD lo 0) le_rfl hlo hlo le_rfl hhi
  set l1 := if l.getD hi 0 < l.getD lo 0 then swap l lo hi else l with hl1
  obtain ⟨b1, b2, b3, b4⟩ := condSwap_spec l1 ((lo + hi) / 2) lo lo hi
    (l1.getD ((lo + hi) / 2) 0 < l1.getD lo 0) hmid1 hmid2 le_rfl hlo (by omega)
  set l2 := if l1.getD ((lo + hi) / 2) 0 < l1.getD lo 0
    then swap l1 ((lo + hi) / 2) lo else l1 with hl2
  obtain ⟨c1, c2, c3, c4⟩ := condSwap_spec l2 hi ((lo + hi) / 2) lo hi
    (l2.getD hi 0 < l2.getD ((lo + hi) / 2) 0) hlo le_rfl hmid1 hmid2 (by omega)
  set l3 := if l2.getD hi 0 < l2.getD ((lo + hi) / 2) 0
    then swap l2 hi ((lo + hi) / 2) else l2 with hl3
  have hp : pivotStep l lo hi = (l3, l3.getD ((lo + hi) / 2) 0) := rfl
  rw [hp]
  refine ⟨by rw [c1, b1, a1], by rw [c2, b2, a2], by rw [c3, b3, a3],
    (c4.trans b4).trans a4, ?_⟩
  exact getD_mem_seg l3 hmid1 hmid2 (by rw [c1, b1, a1]; omega)

theorem filter3_perm (s : List Int) (p : Int) :
    s.filter (fun x => decide (x < p)) ++
      s.filter (fun x => decide (¬ x < p ∧ ¬ p < x)) ++
      s.filter (fun x => decide (¬ x < p ∧ p < x)) ~ s := by
  have h1 := List.filter_append_perm (fun x => decide (x < p)) s
  have h2 := List.filter_append_perm (fun x => decide (¬ x < p ∧ ¬ p < x))
    (s.filter (fun x => !(decide (x < p))))
  rw [List.filter_filter, List.filter_filter] at h2
  have e1 : s.filter (fun a => decide (¬ a < p ∧ ¬ p < a) && !decide (a < p)) =
      s.filter (fun x => decide (¬ x < p ∧ ¬ p < x)) := by
    apply List.filter_congr
    intro x _
    by_cases hx : x < p <;> by_cases hpx : p < x <;> simp [hx, hpx]
  have e2 : s.filter (fun a => !decide (¬ a < p ∧ ¬ p < a) && !decide (a < p)) =
      s.filter (fun x => decide (¬ x < p ∧ p < x)) := by
    apply List.filter_congr
    intro x _
    by_cases hx : x < p <;> by_cases hpx : p < x <;> simp [hx, hpx]
  rw [e1, e2] at h2
  calc s.filter (fun x => decide (x < p)) ++
      s.filter (fun x => decide (¬ x < p ∧ ¬ p < x)) ++
      s.filter (fun x => decide (¬ x < p ∧ p < x))
      ~ s.filter (fun x => decide (x < p)) ++
        s.filter (fun x => !(decide (x < p))) := by
        rw [List.append_assoc]
        exact List.Perm.append_left _ h2
    _ ~ s := h1

theorem seg_congr_take {x y : List Int} {t s m : Nat} (h : x.take t = y.take t)
    (hsm : s + m ≤ t) : seg x s m = seg y s m := by
  have hx : seg x s m = ((x.take t).drop s).take m := by
    rw [seg, List.drop_take, List.take_take]
    congr 1
    omega
  have hy : seg y s m = ((y.take t).drop s).take m := by
    rw [seg, List.drop_take, List.take_take]
    congr 1
    omega
  rw [hx, hy, h]

theorem seg_congr_drop {x y : List Int} {t s m : Nat} (h : x.drop t = y.drop t)
    (hts : t ≤ s) : seg x s m = seg y s m := by
  have hx : seg x s m = ((x.drop t).drop (s - t)).take m := by
    rw [seg, List.drop_drop]
    congr 2
    omega
  have hy : seg y s m = ((y.drop t).drop (s - t)).take m := by
    rw [seg, List.drop_drop]
    congr 2
    omega
  rw [hx, hy, h]

theorem take_mono_eq {x y : List Int} {t lo : Nat} (h : x.take t = y.take t)
    (hlo : lo ≤ t) : x.take lo = y.take lo := by
  have h2 := congrArg (List.take lo) h
  rw [List.take_take, List.take_take] at h2
  have : lo ⊓ t = lo := by omega
  rwa [this] at h2

theorem drop_mono_eq {x y : List Int} {t d : Nat} (h : x.drop t = y.drop t)
    (htd : t ≤ d) : x.drop d = y.drop d := by
  have h2 := congrArg (List.drop (d - t)) h
  rw [List.drop_drop, List.drop_drop] at h2
  have : t + (d - t) = d := by omega
  rwa [this] at h2

theorem sorted_of_all_eq (s : List Int) (p : Int) (h : ∀ x ∈ s, x = p) :
    s.Sorted (· ≤ ·) := by
  induction s with
  | nil => exact List.sorted_nil
  | cons a t ih =>
    rw [List.Sorted, List.pairwise_cons]
    refine ⟨fun b hb => ?_, ih (fun x hx => h x (List.mem_cons_of_mem a hx))⟩
    rw [h a (List.mem_cons_self a t), h b (List.mem_cons_of_mem a hb)]

theorem sorted_len_le_one (s : List Int) (h : s.length ≤ 1) :
    s.Sorted (· ≤ ·) := by
  rcases s with _ | ⟨a, _ | ⟨b, t⟩⟩
  · exact List.sorted_nil
  · exact List.sorted_singleton a
  · simp at h

theorem qsortAux_spec : ∀ n fuel (l : List Int) (lo hi : Nat),
    hi + 1 - lo ≤ n → n ≤ fuel → hi < l.length →
    (qsortAux fuel l lo hi).length = l.length ∧
    (qsortAux fuel l lo hi).take lo = l.take lo ∧
    (qsortAux fuel l lo hi).drop (hi + 1) = l.drop (hi + 1) ∧
    seg (qsortAux fuel l lo hi) lo (hi + 1 - lo) ~ seg l lo (hi + 1 - lo) ∧
    (seg (qsortAux fuel l lo hi) lo (hi + 1 - lo)).Sorted (· ≤ ·) := by
  intro n
  induction n using Nat.strong_induction_on with
  | _ n ih =>
    intro fuel l lo hi hn hfuel hhi
    by_cases hlh : lo < hi
    case neg =>
      rw [qsortAux_id fuel l lo hi hlh]
      refine ⟨rfl, rfl, rfl, List.Perm.refl _, ?_⟩
      apply sorted_len_le_one
      rw [seg]
      simp only [List.length_take, List.length_drop]
      omega
    case pos =>
      obtain ⟨f, rfl⟩ : ∃ f, fuel = f + 1 := ⟨fuel - 1, by omega⟩
      rw [show qsortAux (f + 1) l lo hi = qsortAux f
            (qsortAux f
              (partitionStep (pivotStep l lo hi).1 (pivotStep l lo hi).2 lo hi).1
              lo
              ((partitionStep (pivotStep l lo hi).1 (pivotStep l lo hi).2 lo hi).2.1 - 1))
            ((partitionStep (pivotStep l lo hi).1 (pivotStep l lo hi).2 lo hi).2.2 + 1) hi
        from by rw [qsortAux, if_pos hlh]]
      obtain ⟨p1len, p1tk, p1dp, p1pm, p1mem⟩ := pivotStep_spec l lo hi (by omega) hhi
      set l1 := (pivotStep l lo hi).1 with hl1
      set p := (pivotStep l lo hi).2 with hp
      set S := seg l1 lo (hi + 1 - lo) with hS
      set low := S.filter (fun x => decide (x < p)) with hlow
      set piv := S.filter (fun x => decide (¬ x < p ∧ ¬ p < x)) with hpiv
      set high := S.filter (fun x => decide (¬ x < p ∧ p < x)) with hhigh
      have hptl : (partitionStep l1 p lo hi).2.1 = lo + low.length := rfl
      have hptr : (partitionStep l1 p lo hi).2.2 =
          lo + low.length + piv.length - 1 := rfl
      rw [hptl, hptr]
      set l2 := (partitionStep l1 p lo hi).1 with hl2
      have hpt1 : l2 = l1.take lo ++ (low ++ piv ++ high) ++ l1.drop (hi + 1) := rfl
      have h3 : low ++ piv ++ high ~ S := filter3_perm S p
      have hSlen : S.length = hi + 1 - lo := by
        rw [hS, seg]
        simp only [List.length_take, List.length_drop]
        omega
      have hsum : low.length + piv.length + high.length = hi + 1 - lo := by
        have hle := h3.length_eq
        simp only [List.length_append] at hle
        omega
      have hpmem : p ∈ piv := by
        rw [hpiv]
        exact List.mem_filter.mpr ⟨p1mem, by simp⟩
      have hpivlen : 1 ≤ piv.length := List.length_pos_of_mem hpmem
      have harg : lo + low.length + piv.length - 1 + 1 =
          lo + low.length + piv.length := by omega
      rw [harg]
      have htklo : (l1.take lo).length = lo := by
        simp only [List.length_take]
        omega
      have hmid : (low ++ piv ++ high).length = hi + 1 - lo := by
        simp only [List.length_append]
        omega
      have hl2len : l2.length = l.length := by
        rw [hpt1]
        simp only [List.length_append, List.length_take, List.length_drop]
        omega
      have hl2tk : l2.take lo = l.take lo := by
        rw [hpt1, List.append_assoc, List.take_left' htklo, p1tk]
      have hl2dp : l2.drop (hi + 1) = l.drop (hi + 1) := by
        rw [hpt1, List.drop_left', p1dp]
        rw [List.length_append, htklo, hmid]
        omega
      have hl2seg : seg l2 lo (hi + 1 - lo) = low ++ piv ++ high := by
        rw [hpt1, seg, List.append_assoc, List.drop_left' htklo,
          List.take_left' hmid]
      have hise : seg l2 lo low.length = low := by
        have h1 : seg l2 lo low.length = (seg l2 lo (hi + 1 - lo)).take low.length := by
          rw [seg, seg, List.take_take]
          congr 1
          omega
        rw [h1, hl2seg, List.append_assoc, List.take_left' rfl]
      have hpise : seg l2 (lo + low.length) piv.length = piv := by
        have h1 : seg l2 (lo + low.length) piv.length =
            ((seg l2 lo (hi + 1 - lo)).drop low.length).take piv.length := by
          rw [seg, seg, List.drop_take, List.drop_drop, List.take_take]
          congr 1
          omega
        rw [h1, hl2seg, List.append_assoc, List.drop_left' rfl,
          List.take_left' rfl]
      have hhise : seg l2 (lo + low.length + piv.length) high.length = high := by
        have h1 : seg l2 (lo + low.length + piv.length) high.length =
            ((seg l2 lo (hi + 1 - lo)).drop (low.length + piv.length)).take
              high.length := by
          rw [seg, seg, List.drop_take, List.drop_drop, List.take_take]
          have e1 : lo + (low.length + piv.length) = lo + low.length + piv.length := by
            omega
          rw [e1]
          congr 1
          omega
        rw [h1, hl2seg, List.drop_left' (by simp), List.take_length]
      have hSperm : S ~ seg l lo (hi + 1 - lo) :=
        seg_perm_of_outer l1 l lo hi p1tk p1dp p1pm (by omega)
      have hlow_mem : ∀ x ∈ low, x < p := by
        intro x hx
        rw [hlow] at hx
        have := (List.mem_filter.mp hx).2
        simpa using this
      have hpiv_mem : ∀ x ∈ piv, x = p := by
        intro x hx
        rw [hpiv] at hx
        have := (List.mem_filter.mp hx).2
        simp only [decide_eq_true_eq] at this
        omega
      have hhigh_mem : ∀ x ∈ high, p < x := by
        intro x hx
        rw [hhigh] at hx
        have hcond := (List.mem_filter.mp hx).2
        simp only [decide_eq_true_eq] at hcond
        exact hcond.2
      set L3 := qsortAux f l2 lo (lo + low.length - 1) with hL3
      have hcall1 : L3.length = l2.length ∧ L3.take lo = l2.take lo ∧
          L3.drop (lo + low.length) = l2.drop (lo + low.length) ∧
          seg L3 lo low.length ~ low ∧ (seg L3 lo low.length).Sorted (· ≤ ·) := by
        rcases Nat.eq_zero_or_pos low.length with h0 | hpos
        · have hid : L3 = l2 := by
            rw [hL3, qsortAux_id]
            omega
          have hlow0 : low = [] := List.length_eq_zero.mp h0
          rw [hid, h0, hlow0]
          exact ⟨rfl, rfl, by rw [Nat.add_zero], by rw [seg, List.take_zero],
            by rw [seg, List.take_zero]; exact List.sorted_nil⟩
        · have hlt : low.length < n := by omega
          obtain ⟨r1, r2, r3, r4, r5⟩ := ih low.length hlt f l2 lo
            (lo + low.length - 1) (by omega) (by omega) (by omega)
          have e1 : lo + low.length - 1 + 1 = lo + low.length := by omega
          have e2 : lo + low.length - 1 + 1 - lo = low.length := by omega
          rw [e1] at r3
          rw [e2] at r4 r5
          rw [hise] at r4
          exact ⟨r1, r2, r3, r4, r5⟩
      obtain ⟨c1len, c1tk, c1dp, c1pm, c1st⟩ := hcall1
      set L4 := qsortAux f L3 (lo + low.length + piv.length) hi with hL4
      have hcall2 : L4.length = L3.length ∧
          L4.take (lo + low.length + piv.length) =
            L3.take (lo + low.length + piv.length) ∧
          L4.drop (hi + 1) = L3.drop (hi + 1) ∧
          seg L4 (lo + low.length + piv.length) high.length ~
            seg L3 (lo + low.length + piv.length) high.length ∧
          (seg L4 (lo + low.length + piv.length) high.length).Sorted (· ≤ ·) := by
        rcases Nat.eq_zero_or_pos high.length with h0 | hpos
        · have hup : lo + low.length + piv.length = hi + 1 := by omega
          have hid : L4 = L3 := by
            rw [hL4, qsortAux_id]
            omega
          rw [hid, h0]
          exact ⟨rfl, rfl, rfl, by rw [seg, List.take_zero],
            by rw [seg, List.take_zero]; exact List.sorted_nil⟩
        · have hlt : high.length < n := by omega
          obtain ⟨r1, r2, r3, r4, r5⟩ := ih high.length hlt f L3
            (lo + low.length + piv.length) hi (by omega) (by omega)
            (by rw [c1len, hl2len]; omega)
          have e1 : hi + 1 - (lo + low.length + piv.length) = high.length := by
            omega
          rw [e1] at r4 r5
          refine ⟨r1, ?_, r3, r4, r5⟩
          have e2 : lo + low.length + piv.length - 1 + 1 =
              lo + low.length + piv.length := by omega
          exact r2
      obtain ⟨c2len, c2tk, c2dp, c2pm, c2st⟩ := hcall2
      have hL3seg_piv : seg L3 (lo + low.length) piv.length = piv := by
        rw [seg_congr_drop c1dp le_rfl, hpise]
      have hL4segA : seg L4 lo low.length = seg L3 lo low.length :=
        seg_congr_take c2tk (by omega)
      have hL4segB : seg L4 (lo + low.length) piv.length = piv := by
        rw [seg_congr_take c2tk (by omega), hL3seg_piv]
      have hL4segC : seg L4 (lo + low.length + piv.length) high.length ~ high := by
        refine c2pm.trans ?_
        rw [seg_congr_drop c1dp (by omega), hhise]
      have hdecomp : seg L4 lo (hi + 1 - lo) =
          seg L4 lo low.length ++ (seg L4 (lo + low.length) piv.length ++
            seg L4 (lo + low.length + piv.length) high.length) := by
        rw [show hi + 1 - lo = low.length + (piv.length + high.length) from by omega,
          seg_append, seg_append]
      refine ⟨?_, ?_, ?_, ?_, ?_⟩
      · rw [c2len, c1len, hl2len]
      · rw [take_mono_eq c2tk (by omega), c1tk, hl2tk]
      · rw [c2dp, drop_mono_eq c1dp (by omega), hl2dp]
      · rw [hdecomp, hL4segB]
        have hperm1 : seg L4 lo low.length ++ (piv ++
            seg L4 (lo + low.length + piv.length) high.length) ~
            low ++ (piv ++ high) := by
          refine List.Perm.append (hL4segA ▸ c1pm) (List.Perm.append_left piv hL4segC)
        refine hperm1.trans ?_
        refine List.Perm.trans ?_ hSperm
        rw [← List.append_assoc]
        exact h3
      · rw [hdecomp]
        have hA_mem : ∀ x ∈ seg L4 lo low.length, x < p := by
          intro x hx
          rw [hL4segA] at hx
          exact hlow_mem x (c1pm.mem_iff.mp hx)
        have hC_mem : ∀ x ∈ seg L4 (lo + low.length + piv.length) high.length,
            p < x := by
          intro x hx
          exact hhigh_mem x (hL4segC.mem_iff.mp hx)
        rw [List.Sorted, List.pairwise_append]
        refine ⟨by rw [hL4segA]; exact c1st, ?_, ?_⟩
        · rw [List.pairwise_append, hL4segB]
          refine ⟨sorted_of_all_eq piv p hpiv_mem, c2st, ?_⟩
          intro a ha b hb
          rw [hpiv_mem a ha]
          exact le_of_lt (hC_mem b hb)
        · intro a ha b hb
          rcases List.mem_append.mp hb with h | h
          · rw [hL4segB] at h
            rw [hpiv_mem b h]
            exact le_of_lt (hA_mem a ha)
          · exact le_of_lt (lt_trans (hA_mem a ha) (hC_mem b h))

/-- A tiny heap of list values: Python variables are references into
it.  `quicksort(L, lo, hi)` resolves the default `hi = -1` to
`len(L) - 1`, allocates a fresh cell for `tmp = L.copy()`, sorts `tmp`
in place (`_qsort` writes only through the `tmp` reference) and returns
the reference to the sorted copy; the caller's cell is never written. -/
def quicksortCall (heap : List (List Int)) (ref : Nat) (lo : Nat) (hi : Int) :
    List (List Int) × Nat :=
  let L := heap.getD ref []
  let hi2 : Nat := if hi = -1 then L.length - 1 else hi.toNat
  let heap2 := heap ++ [L]
  let tmpRef := heap.length
  (heap2.set tmpRef (qsortAux (hi2 + 1) (heap2.getD tmpRef []) lo hi2), tmpRef)

end Quicksort

/-- C2: `quicksort` called with the default `lo` and `hi` returns a
list that is sorted in non-decreasing order and is a permutation of the
input (same multiset of elements). -/
theorem quicksort_sorts (l : List Int) :
    (Quicksort.quicksort l).Sorted (· ≤ ·) ∧ Quicksort.quicksort l ~ l := by
  rcases eq_or_ne l [] with rfl | hne
  · have h0 : Quicksort.quicksort [] = [] := rfl
    rw [h0]
    exact ⟨List.sorted_nil, List.Perm.refl _⟩
  · have hlen : 1 ≤ l.length := List.length_pos.mpr hne
    obtain ⟨r1, r2, r3, r4, r5⟩ := Quicksort.qsortAux_spec l.length l.length l 0
      (l.length - 1) (by omega) le_rfl (by omega)
    have e : l.length - 1 + 1 - 0 = l.length := by omega
    rw [e] at r4 r5
    have hwhole : ∀ (x : List Int), x.length = l.length →
        Quicksort.seg x 0 l.length = x := by
      intro x hx
      rw [Quicksort.seg, List.drop_zero, ← hx, List.take_length]
    rw [hwhole _ r1] at r4 r5
    rw [hwhole l rfl] at r4
    rw [Quicksort.quicksort]
    exact ⟨r5, r4⟩

/-- C9: `quicksort` never mutates its argument: for every heap, every
valid reference to the caller's list, and every choice of `lo` and
`hi`, after the call every pre-existing heap cell — in particular the
argument's — holds exactly the value it held before: the function
copies `L` and sorts only the copy. -/
theorem quicksort_no_mutation (heap : List (List Int)) (ref lo : Nat) (hi : Int)
    (href : ref < heap.length) :
    ((Quicksort.quicksortCall heap ref lo hi).1).take heap.length = heap ∧
    ((Quicksort.quicksortCall heap ref lo hi).1).getD ref [] = heap.getD ref [] := by
  have h1 : ((Quicksort.quicksortCall heap ref lo hi).1).take heap.length = heap := by
    rw [show (Quicksort.quicksortCall heap ref lo hi).1 =
        (heap ++ [heap.getD ref []]).set heap.length
          (Quicksort.qsortAux
            ((if hi = -1 then (heap.getD ref []).length - 1 else hi.toNat) + 1)
            ((heap ++ [heap.getD ref []]).getD heap.length [])
            lo (if hi = -1 then (heap.getD ref []).length - 1 else hi.toNat))
      from rfl]
    rw [List.set_append, if_neg (by omega)]
    have hsub : heap.length - heap.length = 0 := by omega
    rw [hsub]
    have hset : ∀ (v : List Int), ([heap.getD ref []].set 0 v) = [v] := fun v => rfl
    rw [hset, List.take_left]
  refine ⟨h1, ?_⟩
  conv_rhs => rw [← h1]
  rw [List.getD_eq_getElem?_getD, List.getD_eq_getElem?_getD, List.getElem?_take]
  rw [if_pos href]

/-- Witness for C9 at a concrete heap: one caller cell holding
`[3, 1, 2]`; after `quicksort` with defaults the cell still holds
`[3, 1, 2]`. -/
theorem quicksort_no_mutation_witness :
    (0 < ([[ (3 : Int), 1, 2 ]] : List (List Int)).length) ∧
    ((Quicksort.quicksortCall [[(3 : Int), 1, 2]] 0 0 (-1)).1).take 1 =
      [[(3 : Int), 1, 2]] ∧
    ((Quicksort.quicksortCall [[(3 : Int), 1, 2]] 0 0 (-1)).1).getD 0 [] =
      ([[(3 : Int), 1, 2]] : List (List Int)).getD 0 [] :=
  ⟨by decide, (quicksort_no_mutation [[(3 : Int), 1, 2]] 0 0 (-1) (by decide)).1,
   (quicksort_no_mutation [[(3 : Int), 1, 2]] 0 0 (-1) (by decide)).2⟩

/-! ## anagram.py: anagram generation

`anagrams(word, wordlist, min_component_length)` walks over the
admissible splits of `len(word)` into component lengths, and for each
split runs the backtracking generator `comb`, which picks from the
wordlist a word of each required length that fits into the remaining
letters.  `collections.Counter` letter multisets are modelled as
`Multiset Char`; `has` (multiset inclusion, letter count by letter
count) becomes multiset `≤` and Counter subtraction becomes multiset
subtraction (both truncate at zero).  The `WordList` object is modelled
by the list of its words; its `by_length` buckets keep, in order, the
words of each length paired with their letter counters.  Python `sorted`
is a stable sort, modelled by insertion sort; sets used to discard
duplicates become `dedup`. -/

namespace Anagram

/-- `split(n)` of the source, fuel-bounded (the recursion is on `n - k`
with `k ≥ 1`, so fuel `n` suffices): all ordered sequences of positive
integers that sum to `n`. -/
def splitAux : Nat → Nat → List (List Nat)
  | 0, _ => []
  | fuel + 1, n =>
    (List.range' 1 n).flatMap (fun k =>
      if n - k = 0 then [[k]]
      else (splitAux fuel (n - k)).map (fun item => k :: item))

/-- `split(n)`: the generator instantiated with enough fuel. -/
def split (n : Nat) : List (List Nat) := splitAux n n

/-- `ordered` of `admissible_splits`: sort counts in descending order
(stable, like Python `sorted(lst, reverse=True)`). -/
def orderedDesc (l : List Nat) : List Nat :=
  l.insertionSort (fun a b => b ≤ a)

/-- Python comparison `<` on tuples of integers (lexicographic). -/
def natListLt : List Nat → List Nat → Bool
  | [], [] => false
  | [], _ :: _ => true
  | _ :: _, [] => false
  | a :: as, b :: bs =>
    if a < b then true else if b < a then false else natListLt as bs

/-- `admissible_splits`: unique splits, disregarding order, where each
component has at least the minimum length, sorted descending. -/
def admissible_splits (n minlen : Nat) : List (List Nat) :=
  let s := split n
  let s2 := (s.map orderedDesc).dedup
  let s3 := s2.filter (fun c => c.all (fun m => decide (minlen ≤ m)))
  s3.insertionSort (fun x y => natListLt x y = false)

/-- `Counter(word)`: the multiset of the letters of a word. -/
def counter (w : List Char) : Multiset Char := (w : Multiset Char)

/-- `has(word, subword)`: every letter of the subword occurs in the
word at least as often — multiset inclusion. -/
def has (word subword : Multiset Char) : Bool := decide (subword ≤ word)

/-- The `by_length` dict of `WordList`: for each length, the words of
that length in list order, paired with their letter counters. -/
def byLength (lst : List (List Char)) (n : Nat) : List (List Char × Multiset Char) :=
  (lst.filter (fun w => decide (w.length = n))).map (fun w => (w, counter w))

/-- `build_component`: the words of the given length that fit into the
remaining letters, each paired with the letters left after using it. -/
def build_component (lst : List (List Char)) (letters : Multiset Char) (n : Nat) :
    List (List Char × Multiset Char) :=
  (byLength lst n).filterMap (fun wc =>
    if has letters wc.2 then some (wc.1, letters - wc.2) else none)

/-- `comb`: pick a component for the first length, then recurse on the
remaining lengths with the remaining letters; a tuple is produced when
the lengths run out.  (`m, *rest = lengths` would raise on an empty
list; the source never calls it so.) -/
def comb (lst : List (List Char)) : List Nat → Multiset Char → List (List (List Char))
  | [], _ => []
  | m :: rest, letters =>
    (build_component lst letters m).flatMap (fun cr =>
      if rest = [] then [[cr.1]]
      else (comb lst rest cr.2).map (fun item => cr.1 :: item))

/-- Python comparison `<` on strings (lexicographic on characters). -/
def strLt : List Char → List Char → Bool
  | [], [] => false
  | [], _ :: _ => true
  | _ :: _, [] => false
  | a :: as, b :: bs =>
    if a < b then true else if b < a then false else strLt as bs

/-- `ordered` of `anagrams`: sort the words of one anagram ascending. -/
def orderedStrs (r : List (List Char)) : List (List Char) :=
  r.insertionSort (fun x y => strLt y x = false)

/-- Python comparison `<` on tuples of strings (lexicographic). -/
def tupLt : List (List Char) → List (List Char) → Bool
  | [], [] => false
  | [], _ :: _ => true
  | _ :: _, [] => false
  | a :: as, b :: bs =>
    if strLt a b then true else if strLt b a then false else tupLt as bs

/-- `anagrams(word, wordlist, min_component_length)`: for every
admissible split whose lengths all have words, generate the anagrams,
normalize each tuple to ascending order, discard duplicates, sort, and
concatenate over the splits. -/
def anagrams (word : List Char) (lst : List (List Char)) (minlen : Nat) :
    List (List (List Char)) :=
  let letters := counter word
  (admissible_splits word.length minlen).flatMap (fun the_split =>
    if the_split.all (fun n => decide (byLength lst n ≠ [])) then
      (((comb lst the_split letters).map orderedStrs).dedup).insertionSort
        (fun x y => tupLt y x = false)
    else [])

theorem split_sound : ∀ fuel n l, l ∈ splitAux fuel n →
    l.sum = n ∧ ∀ k ∈ l, 1 ≤ k := by
  intro fuel
  induction fuel with
  | zero => intro n l h; simp [splitAux] at h
  | succ f ih =>
    intro n l h
    rw [splitAux, List.mem_flatMap] at h
    obtain ⟨k, hk, hl⟩ := h
    rw [List.mem_range'_1] at hk
    by_cases hnk : n - k = 0
    · rw [if_pos hnk] at hl
      simp only [List.mem_singleton] at hl
      subst hl
      exact ⟨by simp; omega, by intro x hx; simp at hx; omega⟩
    · rw [if_neg hnk, List.mem_map] at hl
      obtain ⟨item, hitem, rfl⟩ := hl
      obtain ⟨hsum, hpos⟩ := ih (n - k) item hitem
      refine ⟨by simp [hsum]; omega, ?_⟩
      intro x hx
      rcases List.mem_cons.mp hx with rfl | hx
      · omega
      · exact hpos x hx

theorem admissible_sound {n minlen : Nat} {c : List Nat}
    (hc : c ∈ admissible_splits n minlen) :
    c.sum = n ∧ ∀ m ∈ c, minlen ≤ m := by
  rw [admissible_splits] at hc
  have hc2 := (List.perm_insertionSort _ _).mem_iff.mp hc
  rw [List.mem_filter] at hc2
  obtain ⟨hmem, hall⟩ := hc2
  rw [List.mem_dedup, List.mem_map] at hmem
  obtain ⟨c0, hc0, rfl⟩ := hmem
  obtain ⟨hsum, _⟩ := split_sound n n c0 hc0
  have hperm : orderedDesc c0 ~ c0 := List.perm_insertionSort _ _
  constructor
  · rw [hperm.sum_eq, hsum]
  · intro m hm
    rw [List.all_eq_true] at hall
    have := hall m hm
    simpa using this

theorem build_component_sound {lst : List (List Char)} {letters : Multiset Char}
    {n : Nat} {cr : List Char × Multiset Char}
    (h : cr ∈ build_component lst letters n) :
    cr.1 ∈ lst ∧ cr.1.length = n ∧ counter cr.1 ≤ letters ∧
      cr.2 = letters - counter cr.1 := by
  rw [build_component, List.mem_filterMap] at h
  obtain ⟨wc, hwc, hsome⟩ := h
  rw [byLength, List.mem_map] at hwc
  obtain ⟨w, hw, rfl⟩ := hwc
  rw [List.mem_filter] at hw
  by_cases hhas : has letters (w, counter w).2 = true
  · rw [if_pos hhas] at hsome
    rw [Option.some_inj] at hsome
    subst hsome
    rw [has, decide_eq_true_eq] at hhas
    exact ⟨hw.1, by simpa using hw.2, hhas, rfl⟩
  · rw [if_neg hhas] at hsome
    exact absurd hsome (by simp)

theorem comb_sound (lst : List (List Char)) : ∀ (lengths : List Nat)
    (letters : Multiset Char) (r : List (List Char)),
    r ∈ comb lst lengths letters →
    (∀ c ∈ r, c ∈ lst) ∧ r.map List.length = lengths ∧
      (r.map counter).sum ≤ letters := by
  intro lengths
  induction lengths with
  | nil => intro letters r h; simp [comb] at h
  | cons m rest ih =>
    intro letters r h
    rw [comb, List.mem_flatMap] at h
    obtain ⟨cr, hcr, hr⟩ := h
    obtain ⟨hmem, hlen, hle, hrem⟩ := build_component_sound hcr
    by_cases hrest : rest = []
    · rw [if_pos hrest] at hr
      simp only [List.mem_singleton] at hr
      subst hr
      subst hrest
      refine ⟨by intro c hc; simp at hc; subst hc; exact hmem, by simp [hlen], ?_⟩
      simpa using hle
    · rw [if_neg hrest, List.mem_map] at hr
      obtain ⟨item, hitem, rfl⟩ := hr
      obtain ⟨r1, r2, r3⟩ := ih cr.2 item hitem
      refine ⟨?_, by simp [hlen, r2], ?_⟩
      · intro c hc
        rcases List.mem_cons.mp hc with rfl | hc
        · exact hmem
        · exact r1 c hc
      · rw [hrem] at r3
        calc ((cr.1 :: item).map counter).sum
            = counter cr.1 + (item.map counter).sum := by simp
          _ ≤ counter cr.1 + (letters - counter cr.1) := by
              exact add_le_add_left r3 _
          _ = letters := add_tsub_cancel_of_le hle

theorem counter_sum_card (r : List (List Char)) :
    Multiset.card ((r.map counter).sum) = (r.map List.length).sum := by
  induction r with
  | nil => simp
  | cons c t ih =>
    simp only [List.map_cons, List.sum_cons, Multiset.card_add, ih]
    rw [counter, Multiset.coe_card]

end Anagram

/-- C4: every tuple returned by `anagrams(word, wordlist,
min_component_length)` is a valid anagram of `word`: each component
occurs in the wordlist, each component is at least the minimum length,
and the components' letters together are exactly the multiset of the
letters of `word` — none left over, none overused. -/
theorem anagrams_sound (word : List Char) (lst : List (List Char)) (minlen : Nat)
    (t : List (List Char)) (ht : t ∈ Anagram.anagrams word lst minlen) :
    (∀ c ∈ t, c ∈ lst ∧ minlen ≤ c.length) ∧
    (t.map Anagram.counter).sum = Anagram.counter word := by
  rw [Anagram.anagrams, List.mem_flatMap] at ht
  obtain ⟨sp, hsp, hmem⟩ := ht
  obtain ⟨hsum, hmin⟩ := Anagram.admissible_sound hsp
  rcases hcond : (sp.all (fun n => decide (Anagram.byLength lst n ≠ []))) with _ | _
  · rw [hcond] at hmem
    simp at hmem
  · simp only [hcond, if_true] at hmem
    have h1 := (List.perm_insertionSort _ _).mem_iff.mp hmem
    rw [List.mem_dedup, List.mem_map] at h1
    obtain ⟨r, hr, rfl⟩ := h1
    obtain ⟨m1, m2, m3⟩ := Anagram.comb_sound lst sp (Anagram.counter word) r hr
    have hperm : Anagram.orderedStrs r ~ r := List.perm_insertionSort _ _
    constructor
    · intro c hc
      have hcr : c ∈ r := hperm.mem_iff.mp hc
      refine ⟨m1 c hcr, ?_⟩
      have hclen : c.length ∈ sp := by
        rw [← m2]
        exact List.mem_map_of_mem _ hcr
      exact hmin _ hclen
    · have hmapperm : (Anagram.orderedStrs r).map Anagram.counter ~
          r.map Anagram.counter := hperm.map _
      rw [hmapperm.sum_eq]
      refine Multiset.eq_of_le_of_card_le m3 ?_
      rw [Anagram.counter, Multiset.coe_card, Anagram.counter_sum_card, m2, hsum]

/-- Witness for C4 at a concrete input: the tuple ("a", "b") is among
the anagrams of "ab" over the wordlist ["b", "a"] with minimum
component length 1, and it satisfies the claimed properties. -/
theorem anagrams_sound_witness :
    (∀ c ∈ ([['a'], ['b']] : List (List Char)),
      c ∈ ([['b'], ['a']] : List (List Char)) ∧ 1 ≤ c.length) ∧
    (([['a'], ['b']] : List (List Char)).map Anagram.counter).sum =
      Anagram.counter ['a', 'b'] :=
  anagrams_sound ['a', 'b'] [['b'], ['a']] 1 [['a'], ['b']] (by decide)

namespace Mro

/-- The head invariant of the memo cache: every cached linearization
begins with its own class. -/
def MemoInv (memo : List (String × List String)) : Prop :=
  ∀ e ∈ memo, ∃ t, e.2 = e.1 :: t

theorem alookup_mem : ∀ (l : List (String × α)) (k : String) (v : α),
    alookup l k = some v → (k, v) ∈ l := by
  intro l
  induction l with
  | nil => intro k v h; simp [alookup] at h
  | cons e rest ih =>
    intro k v h
    obtain ⟨k0, v0⟩ := e
    rw [alookup] at h
    split at h
    · next heq =>
      rw [Option.some_inj] at h
      subst heq h
      exact List.mem_cons_self _ _
    · exact List.mem_cons_of_mem _ (ih k v h)

theorem filter_length_le_of_imp {p q : String → Bool} (l : List String)
    (h : ∀ x, p x = true → q x = true) :
    (l.filter p).length ≤ (l.filter q).length := by
  induction l with
  | nil => exact le_rfl
  | cons a t ih =>
    by_cases hpa : p a = true
    · rw [List.filter_cons_of_pos hpa, List.filter_cons_of_pos (h a hpa)]
      simpa using ih
    · rw [List.filter_cons_of_neg (by simpa using hpa)]
      by_cases hqa : q a = true
      · rw [List.filter_cons_of_pos hqa]
        exact le_trans ih (by simp)
      · rw [List.filter_cons_of_neg (by simpa using hqa)]
        exact ih

theorem filter_length_lt {p q : String → Bool} (l : List String)
    (h : ∀ x, p x = true → q x = true) (a : String) (ha : a ∈ l)
    (hqa : q a = true) (hpa : p a = false) :
    (l.filter p).length < (l.filter q).length := by
  induction l with
  | nil => simp at ha
  | cons b t ih =>
    rcases List.mem_cons.mp ha with rfl | hat
    · rw [List.filter_cons_of_neg (by simp [hpa]), List.filter_cons_of_pos hqa]
      exact Nat.lt_succ_of_le (filter_length_le_of_imp t h)
    · by_cases hpb : p b = true
      · rw [List.filter_cons_of_pos hpb, List.filter_cons_of_pos (h b hpb)]
        simpa using ih hat
      · rw [List.filter_cons_of_neg (by simpa using hpb)]
        by_cases hqb : q b = true
        · rw [List.filter_cons_of_pos hqb]
          exact Nat.lt_succ_of_le (le_of_lt (ih hat))
        · rw [List.filter_cons_of_neg (by simpa using hqb)]
          exact ih hat

theorem remove_all_length_le (elt : String) (l : List String) :
    (remove_all elt l).length ≤ l.length :=
  List.length_filter_le _ l

theorem remove_all_length_lt (elt : String) (l : List String) (h : elt ∈ l) :
    (remove_all elt l).length < l.length := by
  rw [remove_all]
  refine List.length_filter_lt_length_iff_exists.mpr ⟨elt, h, by simp⟩

theorem totalLen_remove_lt (hd : String) (lists : List (List String))
    (h : hd ∈ lists.filterMap headO) :
    totalLen (remove_all_in hd lists) < totalLen lists := by
  rw [List.mem_filterMap] at h
  obtain ⟨l0, hl0, hhead⟩ := h
  obtain ⟨s, t, rfl⟩ := List.append_of_mem hl0
  have hmem : hd ∈ l0 := by
    rw [headO] at hhead
    exact List.mem_of_mem_head? hhead
  rw [remove_all_in, totalLen, totalLen]
  simp only [List.map_append, List.map_cons, List.sum_append, List.sum_cons]
  have h1 : ((s.map (remove_all hd)).map List.length).sum ≤
      (s.map List.length).sum := by
    rw [List.map_map]
    exact List.sum_le_sum (fun x _ => remove_all_length_le hd x)
  have h2 : ((t.map (remove_all hd)).map List.length).sum ≤
      (t.map List.length).sum := by
    rw [List.map_map]
    exact List.sum_le_sum (fun x _ => remove_all_length_le hd x)
  have h3 := remove_all_length_lt hd l0 hmem
  omega

theorem C3_merge_loop_total : ∀ fuel out lists, totalLen lists < fuel →
    C3_merge_loop fuel out lists ≠ none := by
  intro fuel
  induction fuel with
  | zero => intro out lists h; omega
  | succ f ih =>
    intro out lists h
    rw [C3_merge_loop]
    by_cases hh : lists.filterMap headO = []
    · rw [if_pos hh]
      simp
    · rw [if_neg hh]
      dsimp only
      cases hfind : C3_find_good_head (lists.filterMap headO) (lists.map tailPy) with
      | none => simp
      | some hd =>
        dsimp only
        have hhd : hd ∈ lists.filterMap headO := List.mem_of_find?_eq_some hfind
        have := totalLen_remove_lt hd lists hhd
        exact ih (out ++ [hd]) (remove_all_in hd lists) (by omega)

theorem C3_merge_total (lists : List (List String)) :
    C3_merge lists ≠ none :=
  C3_merge_loop_total (totalLen lists + 1) [] lists (by omega)

theorem linBases_step (classes : ClassMap) (f : Nat)
    (IH : ∀ name st res, C3_linearize classes f name st = some (.ok res) →
      st.seen ⊆ res.2.seen ∧
        (MemoInv st.memo → MemoInv res.2.memo ∧ ∃ t, res.1 = name :: t)) :
    ∀ bases (st : St) acc res,
      linBases (C3_linearize classes f) bases st acc = some (.ok res) →
      st.seen ⊆ res.2.seen ∧ (MemoInv st.memo → MemoInv res.2.memo) := by
  intro bases
  induction bases with
  | nil =>
    intro st acc res h
    rw [linBases, Option.some_inj] at h
    obtain rfl := Except.ok.inj h
    exact ⟨List.Subset.refl _, id⟩
  | cons b bs ih =>
    intro st acc res h
    rw [linBases] at h
    by_cases hb : b ∈ st.seen
    · rw [if_pos hb] at h
      exact ih st acc res h
    · rw [if_neg hb] at h
      cases hcall : C3_linearize classes f b st with
      | none => rw [hcall] at h; simp at h
      | some r =>
        rw [hcall] at h
        cases r with
        | error e => simp at h
        | ok pr =>
          obtain ⟨mro, st2⟩ := pr
          dsimp only at h
          obtain ⟨hsub, hmi⟩ := IH b st (mro, st2) hcall
          obtain ⟨hsub2, hmi2⟩ := ih st2 (acc ++ [mro]) res h
          exact ⟨fun x hx => hsub2 (hsub hx), fun hm => hmi2 (hmi hm).1⟩

theorem lin_step (classes : ClassMap) : ∀ (fuel : Nat) (name : String) (st : St) res,
    C3_linearize classes fuel name st = some (.ok res) →
    st.seen ⊆ res.2.seen ∧
      (MemoInv st.memo → MemoInv res.2.memo ∧ ∃ t, res.1 = name :: t) := by
  intro fuel
  induction fuel with
  | zero => intro name st res h; simp [C3_linearize] at h
  | succ f ihf =>
    intro name st res h
    rw [C3_linearize] at h
    cases hmemo : alookup st.memo name with
    | some mro =>
      rw [hmemo] at h
      dsimp only at h
      rw [Option.some_inj] at h
      obtain rfl := Except.ok.inj h
      refine ⟨fun x hx => List.mem_insert_of_mem hx, fun hm => ⟨hm, ?_⟩⟩
      obtain ⟨t, ht⟩ := hm (name, mro) (alookup_mem _ _ _ hmemo)
      exact ⟨t, ht⟩
    | none =>
      rw [hmemo] at h
      dsimp only at h
      cases hcls : alookup classes name with
      | none =>
        rw [hcls] at h
        dsimp only at h
        rw [Option.some_inj] at h
        obtain rfl := Except.ok.inj h
        refine ⟨fun x hx => List.mem_insert_of_mem hx, fun hm => ⟨?_, ⟨[], rfl⟩⟩⟩
        intro e he
        rcases List.mem_cons.mp he with rfl | he
        · exact ⟨[], rfl⟩
        · exact hm e he
      | some bases =>
        rw [hcls] at h
        dsimp only at h
        by_cases hbe : bases = []
        · rw [if_pos hbe, Option.some_inj] at h
          obtain rfl := Except.ok.inj h
          refine ⟨fun x hx => List.mem_insert_of_mem hx, fun hm => ⟨?_, ⟨[], rfl⟩⟩⟩
          intro e he
          rcases List.mem_cons.mp he with rfl | he
          · exact ⟨[], rfl⟩
          · exact hm e he
        · rw [if_neg hbe] at h
          cases hlb : linBases (C3_linearize classes f) bases
              ⟨st.memo, st.seen.insert name⟩ [] with
          | none => rw [hlb] at h; simp at h
          | some r =>
            rw [hlb] at h
            cases r with
            | error e => simp at h
            | ok pr =>
              obtain ⟨lists, st2⟩ := pr
              dsimp only at h
              cases hmg : C3_merge (lists ++ [bases]) with
              | none => rw [hmg] at h; simp at h
              | some r2 =>
                rw [hmg] at h
                cases r2 with
                | error e => simp at h
                | ok merged =>
                  dsimp only at h
                  rw [Option.some_inj] at h
                  obtain rfl := Except.ok.inj h
                  obtain ⟨hsub, hmi⟩ := linBases_step classes f ihf bases
                    ⟨st.memo, st.seen.insert name⟩ [] (lists, st2) hlb
                  refine ⟨?_, fun hm => ⟨?_, ⟨merged, rfl⟩⟩⟩
                  · intro x hx
                    exact hsub (List.mem_insert_of_mem hx)
                  · intro e he
                    rcases List.mem_cons.mp he with rfl | he
                    · exact ⟨merged, rfl⟩
                    · exact hmi hm e he

theorem linBases_total (classes : ClassMap) (f : Nat)
    (IHtot : ∀ (name : String) (st : St), name ∈ allNames classes →
      name ∉ st.seen →
      ((allNames classes).filter (fun x => decide (x ∉ st.seen))).length ≤ f →
      C3_linearize classes f name st ≠ none) :
    ∀ bases (st : St) acc, (∀ b ∈ bases, b ∈ allNames classes) →
      ((allNames classes).filter (fun x => decide (x ∉ st.seen))).length ≤ f →
      linBases (C3_linearize classes f) bases st acc ≠ none := by
  intro bases
  induction bases with
  | nil =>
    intro st acc _ _
    rw [linBases]
    simp
  | cons b bs ih =>
    intro st acc hbU hcnt
    rw [linBases]
    by_cases hb : b ∈ st.seen
    · rw [if_pos hb]
      exact ih st acc (fun x hx => hbU x (List.mem_cons_of_mem _ hx)) hcnt
    · rw [if_neg hb]
      have hcall := IHtot b st (hbU b (List.mem_cons_self _ _)) hb hcnt
      cases hlb : C3_linearize classes f b st with
      | none => exact absurd hlb hcall
      | some r =>
        cases r with
        | error e => simp
        | ok pr =>
          obtain ⟨mro, st2⟩ := pr
          dsimp only
          apply ih st2 (acc ++ [mro]) (fun x hx => hbU x (List.mem_cons_of_mem _ hx))
          have hmono := (lin_step classes f b st (mro, st2) hlb).1
          refine le_trans (filter_length_le_of_imp _ ?_) hcnt
          intro x hx
          simp only [decide_eq_true_eq] at hx ⊢
          exact fun hmem => hx (hmono hmem)

theorem lin_total (classes : ClassMap) : ∀ (fuel : Nat) (name : String) (st : St),
    name ∈ allNames classes → name ∉ st.seen →
    ((allNames classes).filter (fun x => decide (x ∉ st.seen))).length ≤ fuel →
    C3_linearize classes fuel name st ≠ none := by
  intro fuel
  induction fuel with
  | zero =>
    intro name st hU hns hcnt
    have hmem : name ∈ (allNames classes).filter (fun x => decide (x ∉ st.seen)) :=
      List.mem_filter.mpr ⟨hU, by simpa using hns⟩
    have := List.length_pos_of_mem hmem
    omega
  | succ f ihf =>
    intro name st hU hns hcnt
    rw [C3_linearize]
    cases hmemo : alookup st.memo name with
    | some mro => simp
    | none =>
      cases hcls : alookup classes name with
      | none => simp
      | some bases =>
        dsimp only
        by_cases hbe : bases = []
        · rw [if_pos hbe]
          simp
        · rw [if_neg hbe]
          have hbases_U : ∀ b ∈ bases, b ∈ allNames classes := by
            intro b hbb
            have hmemc : (name, bases) ∈ classes := alookup_mem _ _ _ hcls
            rw [allNames]
            refine List.mem_dedup.mpr (List.mem_append_right _ ?_)
            rw [List.mem_flatten]
            exact ⟨bases, List.mem_map_of_mem Prod.snd hmemc, hbb⟩
          have hcnt2 : ((allNames classes).filter
              (fun x => decide (x ∉ (st.seen.insert name)))).length ≤ f := by
            have hlt := filter_length_lt (allNames classes)
              (p := fun x => decide (x ∉ (st.seen.insert name)))
              (q := fun x => decide (x ∉ st.seen))
              (by
                intro x hx
                simp only [decide_eq_true_eq] at hx ⊢
                exact fun hmem => hx (List.mem_insert_of_mem hmem))
              name hU (by simpa using hns)
              (by simp [List.mem_insert_self])
            omega
          have hbtot := linBases_total classes f ihf bases
            ⟨st.memo, st.seen.insert name⟩ [] hbases_U hcnt2
          cases hlb : linBases (C3_linearize classes f) bases
              ⟨st.memo, st.seen.insert name⟩ [] with
          | none => exact absurd hlb hbtot
          | some r =>
            cases r with
            | error e => simp
            | ok pr =>
              obtain ⟨lists, st2⟩ := pr
              dsimp only
              cases hmg : C3_merge (lists ++ [bases]) with
              | none => exact absurd hmg (C3_merge_total _)
              | some r2 => cases r2 <;> simp

theorem computeLoop_props (classes : ClassMap) (fuel : Nat) :
    ∀ (names : List String) (memo acc m : List (String × List String)),
      computeLoop classes fuel names memo acc = some (.ok m) →
      MemoInv memo →
      (∀ e ∈ acc, e ∈ m) ∧ ∀ nm ∈ names, ∃ t, (nm, nm :: t) ∈ m := by
  intro names
  induction names with
  | nil =>
    intro memo acc m h _
    rw [computeLoop, Option.some_inj] at h
    obtain rfl := Except.ok.inj h
    exact ⟨fun e he => he, by simp⟩
  | cons nm rest ih =>
    intro memo acc m h hmi
    rw [computeLoop] at h
    cases hcall : C3_linearize classes fuel nm ⟨memo, []⟩ with
    | none => rw [hcall] at h; simp at h
    | some r =>
      rw [hcall] at h
      cases r with
      | error e => simp at h
      | ok pr =>
        obtain ⟨mro, st⟩ := pr
        dsimp only at h
        obtain ⟨_, hmi2⟩ := lin_step classes fuel nm ⟨memo, []⟩ (mro, st) hcall
        obtain ⟨hmi3, t, ht⟩ := hmi2 hmi
        obtain ⟨hacc, hrest⟩ := ih st.memo (acc ++ [(nm, mro)]) m h hmi3
        refine ⟨fun e he => hacc e (List.mem_append_left _ he), ?_⟩
        intro x hx
        rcases List.mem_cons.mp hx with rfl | hx
        · have ht2 : mro = x :: t := ht
          refine ⟨t, ?_⟩
          rw [← ht2]
          exact hacc (x, mro) (List.mem_append_right _ (by simp))
        · exact hrest x hx

theorem computeLoop_total (classes : ClassMap) (fuel : Nat)
    (hfuel : (allNames classes).length < fuel) :
    ∀ (names : List String) (memo acc : List (String × List String)),
      (∀ nm ∈ names, nm ∈ allNames classes) →
      computeLoop classes fuel names memo acc ≠ none := by
  intro names
  induction names with
  | nil =>
    intro memo acc _
    rw [computeLoop]
    simp
  | cons nm rest ih =>
    intro memo acc hU
    rw [computeLoop]
    have hcnt : ((allNames classes).filter
        (fun x => decide (x ∉ (St.mk memo []).seen))).length ≤ fuel := by
      have heq : (allNames classes).filter
          (fun x => decide (x ∉ (St.mk memo []).seen)) = allNames classes := by
        apply List.filter_eq_self.mpr
        intro x _
        simp
      rw [heq]
      omega
    have htot := lin_total classes fuel nm ⟨memo, []⟩
      (hU nm (List.mem_cons_self _ _)) (by simp) hcnt
    cases hcall : C3_linearize classes fuel nm ⟨memo, []⟩ with
    | none => exact absurd hcall htot
    | some r =>
      cases r with
      | error e => simp
      | ok pr =>
        obtain ⟨mro, st⟩ := pr
        dsimp only
        exact ih st.memo (acc ++ [(nm, mro)])
          (fun x hx => hU x (List.mem_cons_of_mem _ hx))

end Mro

/-- C8: `compute_mro` has exactly two outcomes: it returns a dict
containing an MRO list for every class named as a key of the input,
each list beginning with that class itself, or it raises
`LinearizationImpossible`; no partial result is returned on error.
`C3_find_good_head` raises exactly when no list head is absent from
every tail. -/
theorem compute_mro_outcomes :
    (∀ classes : Mro.ClassMap,
      Mro.compute_mro classes = some (.error ()) ∨
      ∃ m, Mro.compute_mro classes = some (.ok m) ∧
        ∀ name ∈ classes.map Prod.fst, ∃ t, (name, name :: t) ∈ m) ∧
    (∀ (heads : List String) (tails : List (List String)),
      Mro.C3_find_good_head heads tails = none ↔
        ∀ hd ∈ heads, hd ∈ tails.flatten) := by
  constructor
  · intro classes
    have htot : Mro.compute_mro classes ≠ none := by
      rw [Mro.compute_mro]
      apply Mro.computeLoop_total classes _ (by omega)
      intro nm hnm
      rw [Mro.allNames]
      exact List.mem_dedup.mpr (List.mem_append_left _ hnm)
    cases hres : Mro.compute_mro classes with
    | none => exact absurd hres htot
    | some r =>
      cases r with
      | error e =>
        left
        cases e
        rfl
      | ok m =>
        right
        have hloop : Mro.compute_mro classes = Mro.computeLoop classes
            ((Mro.allNames classes).length + 1) (classes.map Prod.fst) [] [] := rfl
        rw [hloop] at hres
        obtain ⟨_, hkeys⟩ := Mro.computeLoop_props classes _
          (classes.map Prod.fst) [] [] m hres (by intro e he; simp at he)
        exact ⟨m, rfl, hkeys⟩
  · intro heads tails
    rw [Mro.C3_find_good_head, List.find?_eq_none]
    constructor
    · intro h hd hhd
      have := h hd hhd
      simpa using this
    · intro h hd hhd
      simpa using h hd hhd

/-- Witness for C8 at a concrete hierarchy: on `buggyInput` the call
succeeds with an entry, starting with the class itself, for every key;
and a concrete stuck merge configuration raises. -/
theorem compute_mro_outcomes_witness :
    (∃ m, Mro.compute_mro Mro.buggyInput = some (.ok m) ∧
      ∀ name ∈ Mro.buggyInput.map Prod.fst, ∃ t, (name, name :: t) ∈ m) ∧
    Mro.C3_find_good_head ["A", "B"] [["A", "B"], ["B", "A"]] = none :=
  ⟨(compute_mro_outcomes.1 Mro.buggyInput).resolve_left (by
      intro hcontra
      rw [show Mro.compute_mro Mro.buggyInput =
          some (.ok [("X", ["X", "A", "C", "B", "E"]), ("A", ["A", "B", "E"]),
            ("C", ["C", "B"]), ("B", ["B", "E"]), ("E", ["E"])]) from rfl] at hcontra
      simp at hcontra),
   (compute_mro_outcomes.2 ["A", "B"] [["A", "B"], ["B", "A"]]).mpr (by decide)⟩

/-! ## wordgen.py: make_new_word

`make_new_word` repeatedly generates a word from the Markov database
(an unfold driven by `advance`, by default a random draw from the
finalized distribution) until the word is not already in
`existing_words` or the number of tries reaches `max_tries`; the word is
then added to `existing_words` and `(word, tries, trace)` is returned.
The `advance` callback is modelled as an oracle indexed by a call
counter (capturing the statefulness of the random number generator) that
returns the `more` string; the probability components `p, s` of its
Python return value only flow into the trace, which the verified claim
does not mention.  Strings are lists of characters.  The inner unfold
need not terminate for an arbitrary oracle, so it carries fuel; `none`
models a call that does not return normally.
-/

namespace Wordgen

/-- `more.rstrip(fillvalue)`: drop trailing fill characters. -/
def rstripFill (fill : Char) (s : List Char) : List Char :=
  (s.reverse.dropWhile (fun c => c = fill)).reverse

/-- Python slice `s[-k:]`: the whole string when `k = 0` (as `s[-0:]`
is `s[0:]`), otherwise the last `k` characters (or all of them when the
string is shorter). -/
def pyLastSlice (k : Nat) (s : List Char) : List Char :=
  if k = 0 then s else s.drop (s.length - k)

/-- The inner `while True` unfold of `make_new_word`: call `advance`,
append `more` stripped of fill to the word, shift the state window, and
stop once `more` ends with the fill value.  Returns the word and the
updated oracle counter; `none` models running out of fuel or the
`IndexError` that `more[-1]` raises on an empty `more`. -/
def genWordLoop (adv : Nat → List Char → List Char) (fill : Char) (overlap : Nat) :
    Nat → Nat → List Char → List Char → Option (List Char × Nat)
  | 0, _, _, _ => none
  | fuel + 1, ctr, state, word =>
    let more := adv ctr state
    let word2 := word ++ rstripFill fill more
    let state2 := pyLastSlice overlap (state ++ more)
    match more.getLast? with
    | none => none
    | some c =>
      if c = fill then some (word2, ctr + 1)
      else genWordLoop adv fill overlap fuel (ctr + 1) state2 word2

/-- The outer retry loop of `make_new_word`: generate a word, stop when
`not require_new or word not in existing_words or tries >= max_tries`.
Returns `(word, tries, counter)`. -/
def mnwLoop (adv : Nat → List Char → List Char) (existing : List (List Char))
    (overlap : Nat) (fill : Char) (maxTries : Nat) (requireNew : Bool)
    (innerFuel : Nat) : Nat → Nat → Nat → Option (List Char × Nat × Nat)
  | 0, _, _ => none
  | gas + 1, tries0, ctr =>
    let tries := tries0 + 1
    match genWordLoop adv fill overlap innerFuel ctr (List.replicate overlap fill) [] with
    | none => none
    | some (word, ctr2) =>
      if ¬requireNew = true ∨ word ∉ existing ∨ maxTries ≤ tries then
        some (word, tries, ctr2)
      else mnwLoop adv existing overlap fill maxTries requireNew innerFuel gas tries ctr2

/-- `make_new_word`: run the retry loop from `tries = 0`, then add the
returned word to `existing_words` (mutating it) and return the word,
the tries count, and the updated set. -/
def make_new_word (adv : Nat → List Char → List Char)
    (existing : List (List Char)) (overlap : Nat) (fill : Char)
    (maxTries : Nat) (requireNew : Bool) (innerFuel : Nat) :
    Option (List Char × Nat × List (List Char)) :=
  match mnwLoop adv existing overlap fill maxTries requireNew innerFuel (maxTries + 1) 0 0 with
  | none => none
  | some (word, tries, _) => some (word, tries, existing.insert word)

theorem mnwLoop_spec (adv : Nat → List Char → List Char)
    (existing : List (List Char)) (overlap : Nat) (fill : Char)
    (maxTries : Nat) (innerFuel : Nat) :
    ∀ gas tries0 ctr word tries ctr2, tries0 < maxTries →
      mnwLoop adv existing overlap fill maxTries true innerFuel gas tries0 ctr =
        some (word, tries, ctr2) →
      tries ≤ maxTries ∧ (tries < maxTries → word ∉ existing) := by
  intro gas
  induction gas with
  | zero => intro tries0 ctr word tries ctr2 _ h; simp [mnwLoop] at h
  | succ g ih =>
    intro tries0 ctr word tries ctr2 hlt h
    rw [mnwLoop] at h
    rcases hgen : genWordLoop adv fill overlap innerFuel ctr
        (List.replicate overlap fill) [] with _ | ⟨w, c2⟩ <;> rw [hgen] at h
    · simp at h
    · dsimp only at h
      by_cases hbrk : ¬(true : Bool) = true ∨ w ∉ existing ∨ maxTries ≤ tries0 + 1
      · rw [if_pos hbrk] at h
        obtain ⟨rfl, rfl, rfl⟩ : w = word ∧ tries0 + 1 = tries ∧ c2 = ctr2 := by
          simpa using h
        rcases hbrk with hb | hb | hb
        · simp at hb
        · exact ⟨by omega, fun _ => hb⟩
        · exact ⟨by omega, fun hc => absurd hb (by omega)⟩
      · rw [if_neg hbrk] at h
        push_neg at hbrk
        exact ih (tries0 + 1) c2 word tries ctr2 (by omega) h

end Wordgen

/-- C5: for every advance oracle (hence every finalized database and
random stream) and every `existing_words`, with `require_new = True` and
`max_tries ≥ 1` (the default is 1000), whenever `make_new_word` returns,
the tries count never exceeds `max_tries`; whenever the returned tries
count is strictly below `max_tries`, the returned word was not in
`existing_words` before the call; and in every case the returned word
is a member of the updated `existing_words`. -/
theorem make_new_word_retry_spec (adv : Nat → List Char → List Char)
    (existing : List (List Char)) (overlap : Nat) (fill : Char)
    (maxTries : Nat) (innerFuel : Nat) (word : List Char) (tries : Nat)
    (existing2 : List (List Char)) (hmax : 1 ≤ maxTries)
    (h : Wordgen.make_new_word adv existing overlap fill maxTries true innerFuel =
      some (word, tries, existing2)) :
    tries ≤ maxTries ∧ (tries < maxTries → word ∉ existing) ∧ word ∈ existing2 := by
  rw [Wordgen.make_new_word] at h
  rcases hloop : Wordgen.mnwLoop adv existing overlap fill maxTries true innerFuel
      (maxTries + 1) 0 0 with _ | ⟨w, t, c⟩ <;> rw [hloop] at h
  · simp at h
  · obtain ⟨rfl, rfl, rfl⟩ : w = word ∧ t = tries ∧ existing.insert w = existing2 := by
      simpa using h
    obtain ⟨h1, h2⟩ := Wordgen.mnwLoop_spec adv existing overlap fill maxTries innerFuel
      (maxTries + 1) 0 0 w t c (by omega) hloop
    exact ⟨h1, h2, List.mem_insert_self w existing⟩

/-- Witness for C5 at a concrete oracle: the oracle always emits "a*",
fill is `*`, overlap 1, `max_tries = 1000`; the call succeeds with the
word "a" after one try on an empty `existing_words`. -/
theorem make_new_word_retry_spec_witness :
    (1 : Nat) ≤ 1000 ∧
    ((1 : Nat) ≤ 1000 ∧ (1 : Nat) < 1000 → (['a'] : List Char) ∉ ([] : List (List Char))) ∧
    (1 : Nat) ≤ 1000 ∧ ((1 : Nat) < 1000 → (['a'] : List Char) ∉ ([] : List (List Char))) ∧
    (['a'] : List Char) ∈ [['a']] :=
  ⟨by decide, by decide,
    make_new_word_retry_spec (fun _ _ => ['a', '*']) [] 1 '*' 1000 5 ['a'] 1 [['a']]
      (by decide) (by decide)⟩

/-- C1 (failing evaluation): on the acyclic, C3-consistent hierarchy
X(A, C); A(B); C(B); B(E); E — every class C3-linearizes, as the
`specLinearize` conjunct shows, and the success of the bounded recursion
on every class also witnesses acyclicity — `compute_mro` returns a dict
that maps C to ["C", "B"], but the C3 linearization of C (the class
followed by the C3 merge of its parents' linearizations together with
the parents list) is ["C", "B", "E"].  The cross-class `memo` cache
interacts with the per-run `seen` set: while linearizing X, the bases of
C are skipped because B was already seen under A, and the truncated
result is cached and returned for C. -/
theorem compute_mro_drops_ancestor :
    (∃ m, Mro.compute_mro Mro.buggyInput = some (.ok m) ∧
      Mro.alookup m "C" = some ["C", "B"]) ∧
    (Mro.buggyInput.map Prod.fst).map (Mro.specLinearize Mro.buggyInput 6) =
      [some ["X", "A", "C", "B", "E"], some ["A", "B", "E"],
       some ["C", "B", "E"], some ["B", "E"], some ["E"]] ∧
    (["C", "B"] : List String) ≠ ["C", "B", "E"] := by
  refine ⟨⟨[("X", ["X", "A", "C", "B", "E"]), ("A", ["A", "B", "E"]),
    ("C", ["C", "B"]), ("B", ["B", "E"]), ("E", ["E"])], rfl, by decide⟩, by decide, by decide⟩

/-- C6: the Maybe class satisfies the monad laws with `Maybe(x)` as unit
and `>>` as bind: left identity `Maybe(x) >> f = f x`, right identity
`m >> (fun x => Maybe(x)) = m`, associativity, and binding Nothing with
any function returns Nothing independently of the function. -/
theorem maybe_monad_laws :
    (∀ (α β : Type) (x : α) (f : α → Monads.Maybe β),
      (Monads.Maybe.unit x).bind f = f x) ∧
    (∀ (α : Type) (m : Monads.Maybe α),
      m.bind (fun y => Monads.Maybe.unit y) = m) ∧
    (∀ (α β γ : Type) (m : Monads.Maybe α)
      (f : α → Monads.Maybe β) (g : β → Monads.Maybe γ),
      (m.bind f).bind g = m.bind (fun y => (f y).bind g)) ∧
    (∀ (α β : Type) (f g : α → Monads.Maybe β),
      Monads.Maybe.nothing.bind f = Monads.Maybe.nothing ∧
      Monads.Maybe.nothing.bind f = Monads.Maybe.nothing.bind g) := by
  refine ⟨?_, ?_, ?_, ?_⟩
  · intro α β x f
    simp [Monads.Maybe.bind, Monads.Maybe.unit, Monads.Maybe.fmap, Monads.Maybe.join]
  · intro α m
    obtain ⟨_ | a⟩ := m <;>
      simp [Monads.Maybe.bind, Monads.Maybe.unit, Monads.Maybe.fmap, Monads.Maybe.join]
  · intro α β γ m f g
    obtain ⟨_ | a⟩ := m <;>
      simp [Monads.Maybe.bind, Monads.Maybe.fmap, Monads.Maybe.join]
  · intro α β f g
    constructor <;> rfl

/-- C7: in `race.py` every serial execution of the twenty calls — the
threads run one after another, in any order — ends with `x = 211 =
1 + (1 + 2 + ... + 20)`, and there exists an interleaving of the twenty
threads, starting from `x = 1`, whose final value of `x` differs from
211: the unsynchronized read-modify-write loses updates. -/
theorem race_lost_update :
    (∀ ids : List Nat, ids.Nodup → (∀ i ∈ ids, i < 20) → ids.length = 20 →
      (Race.run (ids.flatMap (fun i => [i, i]))).x = 211) ∧
    ∃ sched, Race.validSched sched ∧ (Race.run sched).x ≠ 211 := by
  constructor
  · intro ids hnd hlt hlen
    rw [Race.run, Race.run_serial_aux ids Race.init (by simp [Race.init]) hnd hlt]
    · have hperm : ids.Perm (List.range 20) := by
        have hsub : ids ⊆ List.range 20 := fun x hx => List.mem_range.mpr (hlt x hx)
        exact (hnd.subperm hsub).perm_of_length_le (by simp [hlen])
      have hsum : (ids.map (fun i => i + 1)).sum =
          ((List.range 20).map (fun i => i + 1)).sum := (hperm.map _).sum_eq
      rw [hsum]
      decide
    · intro i _
      rw [Race.init]
      rw [List.getD_eq_getElem?_getD, List.getElem?_replicate]
      split <;> rfl
  · exact ⟨Race.racySched, by decide, by decide⟩

/-- Witness for C7: the identity thread order is a serial execution and
indeed produces 211. -/
theorem race_lost_update_witness :
    ((List.range 20).Nodup ∧ (∀ i ∈ List.range 20, i < 20) ∧
      (List.range 20).length = 20) ∧
    (Race.run ((List.range 20).flatMap (fun i => [i, i]))).x = 211 :=
  ⟨⟨by decide, by decide, by decide⟩,
   race_lost_update.1 (List.range 20) (by decide) (by decide) (by decide)⟩

end Spec2Proof
